import Mathlib

/-!
# A verification development of the CLOB matching engine (`clob_main.py`)

Shallow embedding of the central limit order book (CLOB) matching engine:
the order data model (regular and iceberg orders), the per-order trade
accounting state machine, the two side books (priority queues over
`(key, timestamp, id)` entries), the id index, the matching loop of
`CLOB.check_matches`, and the submission protocol of `CLOB.start_trades`.

Conventions of the embedding:
* Python `int` volumes are embedded as `Int` (they can go negative in the
  source, since `volume -= possible_amount` is ordinary integer arithmetic).
* `Decimal` prices are embedded as `ℚ` (exact decimal arithmetic; the
  engine only negates and compares prices).
* Timestamps are embedded as a logical counter `Time := ℕ`: the source
  samples a wall clock (`time.time()` / `CLOB.get_timestamp`) whose
  successive samples are strictly increasing, which is exactly what a
  counter incremented at each sample provides.  Only the relative order of
  samples is ever observed.
* In-place mutation of an order object is embedded as functional update of
  the id-index entry under the key it was looked up at.
* The heap (`heapq`) is embedded as a bag of entries with min-extraction
  by the `(key, timestamp)` lexicographic order; the id component of a
  Python heap tuple only breaks exact `(key, timestamp)` ties, which the
  engine's strictly monotone timestamping never produces.
-/

namespace CLOB

abbrev OrderId := String
abbrev Price := ℚ
abbrev Time := ℕ

/-- The side of an order: `B`uy or `S`ell (field 2 of an input record). -/
inductive Side where
  | B : Side
  | S : Side
deriving DecidableEq, Repr

/-- Variant-specific order state: a regular order carries nothing extra; an
iceberg order (`IcebergOrder`) carries `visible_quantity` (the immutable
peak) and `visible_volume` (the current visible slice). -/
inductive Variant where
  | regular : Variant
  | iceberg (visible_quantity : Int) (visible_volume : Int) : Variant
deriving DecidableEq, Repr

/-- An order record: `Order.__init__` / `IcebergOrder.__init__`. -/
structure Order where
  id : OrderId
  price : Price
  volume : Int
  side : Side
  timestamp : Time
  variant : Variant
deriving DecidableEq, Repr

/-- `get_volume`: the displayed volume — `volume` for a regular order, the
`visible_volume` for an iceberg. -/
def Order.get_volume (o : Order) : Int :=
  match o.variant with
  | .regular => o.volume
  | .iceberg _ vv => vv

/-- `Order.trade` / `IcebergOrder.trade`.  Returns the updated order and the
actual transacted amount (`possible_amount`).  A regular order ignores the
counterparty timestamp; an iceberg order is aggressive iff its own
timestamp is strictly greater than `matching_order_timestamp`. -/
def Order.trade (o : Order) (amount : Int) (matchingOrderTimestamp : Time) :
    Order × Int :=
  match o.variant with
  | .regular =>
      let possibleAmount := min o.volume amount
      ({ o with volume := o.volume - possibleAmount }, possibleAmount)
  | .iceberg vq vv =>
      if o.timestamp > matchingOrderTimestamp then
        -- aggressive: consume from volume, then clamp the visible slice
        let possibleAmount := min o.volume amount
        let volume1 := o.volume - possibleAmount
        ({ o with volume := volume1, variant := .iceberg vq (min volume1 vv) },
          possibleAmount)
      else
        -- passive: consume from the visible slice and the volume, then clamp
        let possibleAmount := min vv amount
        let vv1 := vv - possibleAmount
        let volume1 := o.volume - possibleAmount
        ({ o with volume := volume1, variant := .iceberg vq (min volume1 vv1) },
          possibleAmount)

/-- `is_complete`: `volume == 0` for a regular order, `visible_volume == 0`
for an iceberg. -/
def Order.is_complete (o : Order) : Bool :=
  match o.variant with
  | .regular => o.volume == 0
  | .iceberg _ vv => vv == 0

/-- `should_restart`: always false for a regular order; for an iceberg, true
iff `visible_volume == 0 ∧ volume > 0`, refilling the visible slice to
`min volume visible_quantity` as a side effect. -/
def Order.should_restart (o : Order) : Order × Bool :=
  match o.variant with
  | .regular => (o, false)
  | .iceberg vq vv =>
      if vv == 0 && decide (0 < o.volume) then
        ({ o with variant := .iceberg vq (min o.volume vq) }, true)
      else (o, false)

/-! ## Side books, id index, and the engine state -/

/-- One heap tuple `(key, timestamp, id)`: a sell entry stores `price` as
its key, a buy entry stores `-price` (so that min-extraction yields the
highest-priced buy / lowest-priced sell, ties to the earliest arrival). -/
structure Entry where
  hkey : Price
  hts : Time
  hid : OrderId
deriving DecidableEq, Repr

/-- Strict `(key, timestamp)` lexicographic order on heap entries. -/
def entryLt (a b : Entry) : Bool :=
  a.hkey < b.hkey || (a.hkey == b.hkey && a.hts < b.hts)

/-- Extract a minimal entry (leftmost among exact `(key, timestamp)` ties,
which the engine's monotone timestamping never produces) together with the
remaining entries. -/
def extractMin : List Entry → Option (Entry × List Entry)
  | [] => none
  | e :: rest =>
      match extractMin rest with
      | none => some (e, [])
      | some (m, rest1) => if entryLt m e then some (m, e :: rest1) else some (e, rest)

/-- The root of the heap (`heap[0]`), if any. -/
def heapPeek (l : List Entry) : Option Entry :=
  (extractMin l).map Prod.fst

/-- `heapq.heappop`: the heap without its root. -/
def heapPop (l : List Entry) : List Entry :=
  ((extractMin l).map Prod.snd).getD []

/-- `heapq.heappush`. -/
def heapPush (l : List Entry) (e : Entry) : List Entry :=
  e :: l

/-- One side of `orders_book`: a finite map from order id to order record. -/
abbrev Dict := List (OrderId × Order)

/-- Dictionary lookup. -/
def dictGet : Dict → OrderId → Option Order
  | [], _ => none
  | (k, v) :: rest, i => if k = i then some v else dictGet rest i

/-- Dictionary write (`d[k] = v`); models both insertion of a fresh order
and in-place mutation of the record a heap entry refers to. -/
def dictPut : Dict → OrderId → Order → Dict
  | [], k, v => [(k, v)]
  | (k1, v1) :: rest, k, v =>
      if k1 = k then (k, v) :: rest else (k1, v1) :: dictPut rest k v

/-- The engine state: the two halves of `orders_book`, the two heaps, and
the logical clock from which every timestamp sample is drawn. -/
structure Clob where
  ordersB : Dict
  ordersS : Dict
  buy_orders : List Entry
  sell_orders : List Entry
  clock : Time
deriving DecidableEq, Repr

/-- The freshly constructed engine (`CLOB.__init__`). -/
def initClob : Clob :=
  { ordersB := [], ordersS := [], buy_orders := [], sell_orders := [], clock := 0 }

/-! ## The per-pass match log -/

/-- The value stored under a match key: the wall-clock instant the key was
first seen, and the accumulated traded amount. -/
structure LogEntry where
  firstSeen : Time
  amount : Int
deriving DecidableEq, Repr

/-- `match_key = (aggressor_id, passive_id, passive_price)`. -/
abbrev MatchKey := OrderId × OrderId × Price

/-- The per-pass `match_log` dictionary in insertion order. -/
abbrev MatchLog := List (MatchKey × LogEntry)

/-- `match_key in match_log`. -/
def logMem (log : MatchLog) (k : MatchKey) : Bool :=
  log.any fun p => decide (p.1 = k)

/-- `match_log[match_key][1] += traded_amount`. -/
def logBump (log : MatchLog) (k : MatchKey) (traded : Int) : MatchLog :=
  log.map fun p => if p.1 = k then (p.1, { p.2 with amount := p.2.amount + traded }) else p

/-- The key of the trade between the current tops: the later arrival is the
aggressor and the trade is keyed and priced at the other side (lines
123–126 of the source). -/
def matchKeyOf (buyOrder sellOrder : Order) : MatchKey :=
  if buyOrder.timestamp > sellOrder.timestamp then
    (buyOrder.id, sellOrder.id, sellOrder.price)
  else
    (sellOrder.id, buyOrder.id, buyOrder.price)

/-! ## The matching pass -/

/-- Completion handling for one side after a cross (lines 132–139): if the
order is complete its entry is popped, and if it should restart it is
re-pushed under the same heap key with a freshly sampled timestamp.
Returns the updated book, the (possibly refilled) order, and the clock. -/
def settleOrder (book : List Entry) (o : Order) (hkey : Price) (clock : Time) :
    List Entry × Order × Time :=
  if o.is_complete then
    let book1 := heapPop book
    let res := o.should_restart
    if res.2 then
      (heapPush book1 ⟨hkey, clock, res.1.id⟩, res.1, clock + 1)
    else
      (book1, res.1, clock)
  else (book, o, clock)

/-- The loop guard of `check_matches`: both heaps non-empty and
`-buy_orders[0][0] >= sell_orders[0][0]`. -/
def crossExists (st : Clob) : Bool :=
  match heapPeek st.buy_orders, heapPeek st.sell_orders with
  | some b, some s => decide (s.hkey ≤ -b.hkey)
  | _, _ => false

/-- The body of one `check_matches` loop iteration (lines 119–139), once
the two heap roots have been resolved through the id index: the sell side
trades against the buy side's displayed volume, the match key is recorded
or bumped in the log, the reciprocal buy-side update is applied, and each
side's completion is settled.  `bTopId`/`sTopId` are the id-index keys the
two root orders were looked up at. -/
def iterBody (st : Clob) (log : MatchLog) (bTopId sTopId : OrderId)
    (buyOrder sellOrder : Order) : Clob × MatchLog × MatchKey × Int :=
  let amount := buyOrder.get_volume
  let tr := sellOrder.trade amount buyOrder.timestamp
  let sellOrder1 := tr.1
  let traded := tr.2
  let matchKey := matchKeyOf buyOrder sellOrder
  let lg :=
    if logMem log matchKey then (logBump log matchKey traded, st.clock)
    else (log ++ [(matchKey, ⟨st.clock, traded⟩)], st.clock + 1)
  let buyOrder1 := (buyOrder.trade traded sellOrder.timestamp).1
  let sres := settleOrder st.sell_orders sellOrder1 sellOrder1.price lg.2
  let bres := settleOrder st.buy_orders buyOrder1 (-buyOrder1.price) sres.2.2
  ({ ordersB := dictPut st.ordersB bTopId bres.2.1,
     ordersS := dictPut st.ordersS sTopId sres.2.1,
     buy_orders := bres.1,
     sell_orders := sres.1,
     clock := bres.2.2 },
   lg.1, matchKey, traded)

/-- One iteration of the `check_matches` loop (lines 119–139).  Returns
`none` when a heap root's id is missing from the id index (a `KeyError`
in the source); otherwise the new state and match log together with the
key and traded amount of this iteration. -/
def matchIteration (st : Clob) (log : MatchLog) :
    Option (Clob × MatchLog × MatchKey × Int) :=
  match heapPeek st.buy_orders, heapPeek st.sell_orders with
  | some bTop, some sTop =>
      match dictGet st.ordersB bTop.hid, dictGet st.ordersS sTop.hid with
      | some buyOrder, some sellOrder =>
          some (iterBody st log bTop.hid sTop.hid buyOrder sellOrder)
      | _, _ => none
  | _, _ => none

/-- The `while` loop of `check_matches`, with explicit fuel and a ghost
trace recording each iteration's `(match_key, traded_amount)`.  Returns
`none` on fuel exhaustion or on an id-index miss. -/
def check_matches_loop :
    Nat → Clob → MatchLog → List (MatchKey × Int) →
    Option (Clob × MatchLog × List (MatchKey × Int))
  | 0, _, _, _ => none
  | fuel + 1, st, log, trace =>
      if crossExists st then
        match matchIteration st log with
        | some (st1, log1, k, t) => check_matches_loop fuel st1 log1 (trace ++ [(k, t)])
        | none => none
      else some (st, log, trace)

/-- `first seen ≤ first seen` on match-log items: the sort key of the
emission phase (`sorted_logs.sort(key=lambda x: x[1][0])`). -/
def logLe (a b : MatchKey × LogEntry) : Prop :=
  a.2.firstSeen ≤ b.2.firstSeen

instance : DecidableRel logLe := fun a b =>
  inferInstanceAs (Decidable (a.2.firstSeen ≤ b.2.firstSeen))

instance : IsTotal (MatchKey × LogEntry) logLe :=
  ⟨fun a b => Nat.le_total a.2.firstSeen b.2.firstSeen⟩

instance : IsTrans (MatchKey × LogEntry) logLe :=
  ⟨fun _ _ _ h1 h2 => Nat.le_trans h1 h2⟩

/-- The emission phase of `check_matches` (lines 140–143): the accumulated
match log sorted ascending by first-seen time, flushed as
`(aggressor_id, passive_id, passive_price, total_amount)` records. -/
def emitLog (log : MatchLog) : List (MatchKey × Int) :=
  (log.insertionSort logLe).map fun p => (p.1, p.2.amount)

/-- `CLOB.check_matches`: the matching pass followed by emission. -/
def check_matches (fuel : Nat) (st : Clob) :
    Option (Clob × List (MatchKey × Int)) :=
  (check_matches_loop fuel st [] []).map fun r => (r.1, emitLog r.2.1)

/-! ## Submission -/

/-- One parsed input record, before the engine assigns its timestamp:
`(id, side, price, volume)` plus an optional iceberg peak. -/
structure Submission where
  subId : OrderId
  subSide : Side
  subPrice : Price
  subVolume : Int
  subPeak : Option Int
deriving DecidableEq, Repr

/-- Order construction at submission (lines 105–108): the engine stamps
the order, and an iceberg starts with `visible_volume = visible_quantity`. -/
def mkOrder (req : Submission) (ts : Time) : Order :=
  { id := req.subId, price := req.subPrice, volume := req.subVolume,
    side := req.subSide, timestamp := ts,
    variant :=
      match req.subPeak with
      | none => .regular
      | some pk => .iceberg pk pk }

/-- Insertion step of the submission protocol (lines 109–113): record the
order in the id index of its side and push its entry onto that side's
heap, consuming one clock sample for the arrival timestamp. -/
def insertOrder (st : Clob) (req : Submission) : Clob :=
  let o := mkOrder req st.clock
  match req.subSide with
  | .S =>
      { st with ordersS := dictPut st.ordersS o.id o,
                sell_orders := heapPush st.sell_orders ⟨o.price, o.timestamp, o.id⟩,
                clock := st.clock + 1 }
  | .B =>
      { st with ordersB := dictPut st.ordersB o.id o,
                buy_orders := heapPush st.buy_orders ⟨-o.price, o.timestamp, o.id⟩,
                clock := st.clock + 1 }

/-- One submission processed by `start_trades`: insert, then run a full
matching pass. -/
def submit (fuel : Nat) (st : Clob) (req : Submission) :
    Option (Clob × List (MatchKey × Int)) :=
  check_matches fuel (insertOrder st req)

/-! ## Basic lemmas about the engine components -/

theorem matchIteration_eq (st : Clob) (log : MatchLog) (bTop sTop : Entry)
    (b s : Order)
    (hb : heapPeek st.buy_orders = some bTop)
    (hs : heapPeek st.sell_orders = some sTop)
    (hob : dictGet st.ordersB bTop.hid = some b)
    (hos : dictGet st.ordersS sTop.hid = some s) :
    matchIteration st log = some (iterBody st log bTop.hid sTop.hid b s) := by
  unfold matchIteration
  simp only [hb, hs, hob, hos]

theorem dictGet_dictPut_self (d : Dict) (k : OrderId) (v : Order) :
    dictGet (dictPut d k v) k = some v := by
  induction d with
  | nil => simp [dictPut, dictGet]
  | cons p rest ih =>
      obtain ⟨k1, v1⟩ := p
      by_cases h : k1 = k
      · subst h
        simp [dictPut, dictGet]
      · simp [dictPut, dictGet, h, ih]

theorem dictGet_dictPut_ne (d : Dict) (k : OrderId) (v : Order) (i : OrderId)
    (h : i ≠ k) : dictGet (dictPut d k v) i = dictGet d i := by
  induction d with
  | nil => simp [dictPut, dictGet, Ne.symm h]
  | cons p rest ih =>
      obtain ⟨k1, v1⟩ := p
      by_cases hp : k1 = k
      · subst hp
        simp [dictPut, dictGet, Ne.symm h]
      · simp [dictPut, dictGet, hp, ih]

theorem dictPut_isSome (d : Dict) (k : OrderId) (v : Order) (i : OrderId)
    (h : (dictGet d i).isSome = true) : (dictGet (dictPut d k v) i).isSome = true := by
  by_cases hik : i = k
  · subst hik
    rw [dictGet_dictPut_self]
    rfl
  · rw [dictGet_dictPut_ne d k v i hik]
    exact h

theorem should_restart_false_eq (o : Order) (h : (o.should_restart).2 = false) :
    (o.should_restart).1 = o := by
  cases hv : o.variant with
  | regular => simp [Order.should_restart, hv]
  | iceberg vq vv =>
      by_cases hc : (vv == 0 && decide (0 < o.volume)) = true
      · simp [Order.should_restart, hv, hc] at h
      · simp [Order.should_restart, hv, hc]

theorem settleOrder_not_complete (book : List Entry) (o : Order) (hkey : Price)
    (clock : Time) (hc : o.is_complete = false) :
    settleOrder book o hkey clock = (book, o, clock) := by
  simp [settleOrder, hc]

theorem settleOrder_pop (book : List Entry) (o : Order) (hkey : Price) (clock : Time)
    (hc : o.is_complete = true) (hr : (o.should_restart).2 = false) :
    settleOrder book o hkey clock = (heapPop book, o, clock) := by
  simp [settleOrder, hc, hr, should_restart_false_eq o hr]

theorem settleOrder_restart (book : List Entry) (o : Order) (hkey : Price) (clock : Time)
    (hc : o.is_complete = true) (hr : (o.should_restart).2 = true) :
    settleOrder book o hkey clock =
      (heapPush (heapPop book) ⟨hkey, clock, (o.should_restart).1.id⟩,
        (o.should_restart).1, clock + 1) := by
  simp [settleOrder, hc, hr]

theorem iterBody_key (st : Clob) (log : MatchLog) (bi si : OrderId) (b s : Order) :
    (iterBody st log bi si b s).2.2.1 = matchKeyOf b s := rfl

theorem iterBody_traded (st : Clob) (log : MatchLog) (bi si : OrderId) (b s : Order) :
    (iterBody st log bi si b s).2.2.2 = (s.trade b.get_volume b.timestamp).2 := rfl

/-! ## C1: the iceberg aggressive/passive trade rule -/

/-- C1.  For every iceberg order and every call to
`trade(requested, counter_ts)` with data-model-conformant inputs
(non-negative volume, visible slice, and requested amount): the order is
aggressive iff its own arrival timestamp is strictly greater than
`counter_ts`; if aggressive, the amount consumed is
`min(volume, requested)`, it is subtracted from `volume` only, and
afterwards `visible` is clamped to `min(visible, volume)`; if passive,
the amount consumed is `min(visible, requested)` and it is subtracted
from both `visible` and `volume`, with `visible` then clamped to
`min(visible, volume)`; in both cases the returned value is the amount
consumed and `0 ≤ returned ≤ requested`. -/
theorem iceberg_trade_rule (o : Order) (vq vv amount : Int) (cts : Time)
    (hv : o.variant = .iceberg vq vv)
    (h0 : 0 ≤ o.volume) (h1 : 0 ≤ vv) (h2 : 0 ≤ amount) :
    (0 ≤ (o.trade amount cts).2 ∧ (o.trade amount cts).2 ≤ amount) ∧
    (o.timestamp > cts →
      (o.trade amount cts).2 = min o.volume amount ∧
      (o.trade amount cts).1.volume = o.volume - (o.trade amount cts).2 ∧
      (o.trade amount cts).1.variant =
        .iceberg vq (min vv (o.trade amount cts).1.volume)) ∧
    (¬ o.timestamp > cts →
      (o.trade amount cts).2 = min vv amount ∧
      (o.trade amount cts).1.volume = o.volume - (o.trade amount cts).2 ∧
      (o.trade amount cts).1.variant =
        .iceberg vq (min (vv - (o.trade amount cts).2)
          (o.trade amount cts).1.volume)) := by
  by_cases h : o.timestamp > cts
  · refine ⟨⟨?_, ?_⟩, fun _ => ⟨?_, ?_, ?_⟩, fun hc => absurd h hc⟩
    · simp only [Order.trade, hv, if_pos h]
      exact le_min h0 h2
    · simp only [Order.trade, hv, if_pos h]
      exact min_le_right _ _
    · simp only [Order.trade, hv, if_pos h]
    · simp only [Order.trade, hv, if_pos h]
    · simp only [Order.trade, hv, if_pos h]
      rw [min_comm]
  · refine ⟨⟨?_, ?_⟩, fun hc => absurd hc h, fun _ => ⟨?_, ?_, ?_⟩⟩
    · simp only [Order.trade, hv, if_neg h]
      exact le_min h1 h2
    · simp only [Order.trade, hv, if_neg h]
      exact min_le_right _ _
    · simp only [Order.trade, hv, if_neg h]
    · simp only [Order.trade, hv, if_neg h]
    · simp only [Order.trade, hv, if_neg h]
      rw [min_comm]

/-- Witness for C1 at a concrete iceberg order and a concrete call. -/
theorem iceberg_trade_rule_witness :
    (Order.mk "w1" 100 5 .B 3 (.iceberg 10 10)).variant = .iceberg 10 10 ∧
    (0 : Int) ≤ 5 ∧ (0 : Int) ≤ 10 ∧ (0 : Int) ≤ 7 ∧
    (0 ≤ ((Order.mk "w1" 100 5 .B 3 (.iceberg 10 10)).trade 7 1).2 ∧
      ((Order.mk "w1" 100 5 .B 3 (.iceberg 10 10)).trade 7 1).2 ≤ 7) :=
  ⟨rfl, by decide, by decide, by decide,
    (iceberg_trade_rule (Order.mk "w1" 100 5 .B 3 (.iceberg 10 10)) 10 10 7 1 rfl
      (by decide) (by decide) (by decide)).1⟩

/-! ## C2: the recorded match key names the later arrival as aggressor -/

/-- C2.  In every iteration of the matching loop (with the two top orders'
timestamps distinct, as the engine's strictly monotone clock guarantees),
the aggressor of the recorded trade is the order with the strictly later
arrival timestamp, the trade is keyed and priced at the other (passive,
earlier) order's price, and the recorded match key is the triple
`(aggressor_id, passive_id, passive_price)`. -/
theorem match_key_names_later_aggressor (st : Clob) (log : MatchLog)
    (res : Clob × MatchLog × MatchKey × Int) (bTop sTop : Entry) (b s : Order)
    (hb : heapPeek st.buy_orders = some bTop)
    (hs : heapPeek st.sell_orders = some sTop)
    (hob : dictGet st.ordersB bTop.hid = some b)
    (hos : dictGet st.ordersS sTop.hid = some s)
    (hne : b.timestamp ≠ s.timestamp)
    (hit : matchIteration st log = some res) :
    ∃ agg pas : Order, ((agg, pas) = (b, s) ∨ (agg, pas) = (s, b)) ∧
      pas.timestamp < agg.timestamp ∧
      res.2.2.1 = (agg.id, pas.id, pas.price) := by
  rw [matchIteration_eq st log bTop sTop b s hb hs hob hos, Option.some_inj] at hit
  subst hit
  rw [iterBody_key]
  unfold matchKeyOf
  rcases Nat.lt_or_ge s.timestamp b.timestamp with h | h
  · exact ⟨b, s, Or.inl rfl, h, by simp [h]⟩
  · have hlt : b.timestamp < s.timestamp := Nat.lt_of_le_of_ne h hne
    exact ⟨s, b, Or.inr rfl, hlt, by simp [Nat.not_lt.mpr h]⟩

/-- Witness for C2 at a concrete one-versus-one crossing state. -/
theorem match_key_names_later_aggressor_witness :
    (Order.mk "wb" 100 10 .B 1 .regular).timestamp ≠
      (Order.mk "ws" 95 10 .S 0 .regular).timestamp ∧
    ∃ agg pas : Order,
      ((agg, pas) = (Order.mk "wb" 100 10 .B 1 .regular, Order.mk "ws" 95 10 .S 0 .regular) ∨
        (agg, pas) = (Order.mk "ws" 95 10 .S 0 .regular, Order.mk "wb" 100 10 .B 1 .regular)) ∧
      pas.timestamp < agg.timestamp ∧
      (iterBody
        (Clob.mk [("wb", Order.mk "wb" 100 10 .B 1 .regular)]
          [("ws", Order.mk "ws" 95 10 .S 0 .regular)]
          [Entry.mk (-100) 1 "wb"] [Entry.mk 95 0 "ws"] 2) [] "wb" "ws"
        (Order.mk "wb" 100 10 .B 1 .regular)
        (Order.mk "ws" 95 10 .S 0 .regular)).2.2.1 = (agg.id, pas.id, pas.price) :=
  ⟨by decide,
    match_key_names_later_aggressor
      (Clob.mk [("wb", Order.mk "wb" 100 10 .B 1 .regular)]
        [("ws", Order.mk "ws" 95 10 .S 0 .regular)]
        [Entry.mk (-100) 1 "wb"] [Entry.mk 95 0 "ws"] 2) []
      _ (Entry.mk (-100) 1 "wb") (Entry.mk 95 0 "ws")
      (Order.mk "wb" 100 10 .B 1 .regular) (Order.mk "ws" 95 10 .S 0 .regular)
      rfl rfl rfl rfl (by decide) rfl⟩

/-! ## C4: restart semantics and re-queueing of completed orders -/

/-- C4.  For every regular order, `should_restart` always returns false;
for every iceberg order, `should_restart` returns true iff
`visible == 0 ∧ volume > 0`, and when true it refills `visible` to
`min(volume, peak)` as a side effect; and in the matching pass's
completion handling, a completed order whose `should_restart` is true is
popped and re-pushed onto the same side book with a freshly sampled
arrival timestamp (advancing the clock), while a completed order whose
`should_restart` is false is popped without re-push and an incomplete
order is left untouched. -/
theorem should_restart_and_requeue :
    (∀ o : Order, o.variant = .regular → o.should_restart = (o, false)) ∧
    (∀ (o : Order) (vq vv : Int), o.variant = .iceberg vq vv →
      o.should_restart =
        if vv = 0 ∧ 0 < o.volume then
          ({ o with variant := .iceberg vq (min o.volume vq) }, true)
        else (o, false)) ∧
    (∀ (book : List Entry) (o : Order) (hkey : Price) (clock : Time),
      o.is_complete = true → (o.should_restart).2 = true →
        settleOrder book o hkey clock =
          (heapPush (heapPop book) ⟨hkey, clock, (o.should_restart).1.id⟩,
            (o.should_restart).1, clock + 1)) ∧
    (∀ (book : List Entry) (o : Order) (hkey : Price) (clock : Time),
      o.is_complete = true → (o.should_restart).2 = false →
        settleOrder book o hkey clock = (heapPop book, o, clock)) ∧
    (∀ (book : List Entry) (o : Order) (hkey : Price) (clock : Time),
      o.is_complete = false → settleOrder book o hkey clock = (book, o, clock)) := by
  refine ⟨?_, ?_, settleOrder_restart, settleOrder_pop, settleOrder_not_complete⟩
  · intro o hv
    unfold Order.should_restart
    rw [hv]
  · intro o vq vv hv
    simp only [Order.should_restart, hv]
    by_cases hc : vv = 0 ∧ 0 < o.volume
    · rw [if_pos (by simp [hc.1, hc.2]), if_pos hc]
    · rw [if_neg (by simpa using hc), if_neg hc]

/-! ## C9: the reciprocal buy-side update -/

/-- C9 counterexample.  The claim fails on the code: with the buy side a
freshly submitted iceberg of volume 5 but peak (and hence visible) 10 —
a state the source accepts — the sell side trades `traded = 10`, yet the
reciprocal `buy.trade(traded, counter_ts = sell.arrival_ts)` returns only
5, because the aggressive branch caps at the buy order's volume, which is
below its visible slice. -/
theorem reciprocal_trade_counterexample :
    ((Order.mk "S1" 100 100 .S 1 .regular).trade
        (Order.mk "I" 100 5 .B 2 (.iceberg 10 10)).get_volume
        (Order.mk "I" 100 5 .B 2 (.iceberg 10 10)).timestamp).2 = 10 ∧
    ((Order.mk "I" 100 5 .B 2 (.iceberg 10 10)).trade
        ((Order.mk "S1" 100 100 .S 1 .regular).trade
            (Order.mk "I" 100 5 .B 2 (.iceberg 10 10)).get_volume
            (Order.mk "I" 100 5 .B 2 (.iceberg 10 10)).timestamp).2
        (Order.mk "S1" 100 100 .S 1 .regular).timestamp).2 ≠
      ((Order.mk "S1" 100 100 .S 1 .regular).trade
          (Order.mk "I" 100 5 .B 2 (.iceberg 10 10)).get_volume
          (Order.mk "I" 100 5 .B 2 (.iceberg 10 10)).timestamp).2 := by
  decide

/-- C9 (amended).  The reciprocal update
`buy.trade(traded, counter_ts = sell.arrival_ts)` — where `traded` is the
amount just returned by
`sell.trade(buy.displayed_volume(), counter_ts = buy.arrival_ts)` —
returns exactly `traded`, for every combination of regular and iceberg
orders on the two sides, provided the buy order satisfies the data-model
iceberg bound `visible ≤ volume` (which a fresh iceberg submitted with
`peak > volume` violates until its first trade). -/
theorem reciprocal_trade_returns_traded (b s : Order)
    (hb : ∀ vq vv : Int, b.variant = .iceberg vq vv → vv ≤ b.volume) :
    (b.trade (s.trade b.get_volume b.timestamp).2 s.timestamp).2 =
      (s.trade b.get_volume b.timestamp).2 := by
  have htr : (s.trade b.get_volume b.timestamp).2 ≤ b.get_volume := by
    cases hv : s.variant with
    | regular =>
        simp only [Order.trade, hv]
        exact min_le_right _ _
    | iceberg vq vv =>
        by_cases h : s.timestamp > b.timestamp
        · simp only [Order.trade, hv, if_pos h]
          exact min_le_right _ _
        · simp only [Order.trade, hv, if_neg h]
          exact min_le_right _ _
  revert htr
  generalize (s.trade b.get_volume b.timestamp).2 = t
  intro htr
  cases hv : b.variant with
  | regular =>
      have hgv : b.get_volume = b.volume := by simp [Order.get_volume, hv]
      simp only [Order.trade, hv]
      exact min_eq_right (hgv ▸ htr)
  | iceberg vq vv =>
      have hgv : b.get_volume = vv := by simp [Order.get_volume, hv]
      rw [hgv] at htr
      by_cases h : b.timestamp > s.timestamp
      · simp only [Order.trade, hv, if_pos h]
        exact min_eq_right (le_trans htr (hb vq vv hv))
      · simp only [Order.trade, hv, if_neg h]
        exact min_eq_right htr

/-- Witness for the amended C9 at a concrete regular/iceberg pair whose
buy side satisfies the iceberg bound. -/
theorem reciprocal_trade_returns_traded_witness :
    (∀ vq vv : Int,
        (Order.mk "WI" 100 50 .B 2 (.iceberg 10 10)).variant = .iceberg vq vv →
        vv ≤ (Order.mk "WI" 100 50 .B 2 (.iceberg 10 10)).volume) ∧
    ((Order.mk "WI" 100 50 .B 2 (.iceberg 10 10)).trade
        ((Order.mk "WS" 100 30 .S 1 .regular).trade
            (Order.mk "WI" 100 50 .B 2 (.iceberg 10 10)).get_volume
            (Order.mk "WI" 100 50 .B 2 (.iceberg 10 10)).timestamp).2
        (Order.mk "WS" 100 30 .S 1 .regular).timestamp).2 =
      ((Order.mk "WS" 100 30 .S 1 .regular).trade
          (Order.mk "WI" 100 50 .B 2 (.iceberg 10 10)).get_volume
          (Order.mk "WI" 100 50 .B 2 (.iceberg 10 10)).timestamp).2 :=
  ⟨by intro vq vv h; cases h; decide,
    reciprocal_trade_returns_traded (Order.mk "WI" 100 50 .B 2 (.iceberg 10 10))
      (Order.mk "WS" 100 30 .S 1 .regular)
      (by intro vq vv h; cases h; decide)⟩

/-! ## C7: the iceberg visible bounds -/

/-- C7 counterexample.  The claim fails on the code: submitting the
iceberg `I` with volume 5 and peak 10 into the empty engine leaves it
resting with `visible = peak = 10 > 5 = volume`, so `visible ≤ volume`
does not hold immediately after a submission step. -/
theorem iceberg_visible_bound_counterexample :
    (submit 1 initClob ⟨"I", .B, 100, 5, some 10⟩).map
        (fun r => (dictGet r.1.ordersB "I").map fun o => (o.volume, o.variant)) =
      some (some (5, .iceberg 10 10)) ∧
    ¬ ((10 : Int) ≤ 5) := by
  decide

/-- C7 (amended).  `visible ≤ volume` holds after every `trade` (the final
clamp) and after every restart refill, and `visible ≤ peak` is preserved
by every `trade` with data-model-conformant inputs (non-negative requested
amount and visible slice) and by `should_restart`; but immediately after
submission `visible = peak`, which can exceed `volume`. -/
theorem iceberg_visible_bounds :
    (∀ (o : Order) (amount : Int) (cts : Time) (vq vv : Int),
      (o.trade amount cts).1.variant = .iceberg vq vv →
      vv ≤ (o.trade amount cts).1.volume) ∧
    (∀ (o : Order) (amount : Int) (cts : Time) (vq vv vv1 : Int),
      0 ≤ amount → 0 ≤ vv → o.variant = .iceberg vq vv → vv ≤ vq →
      (o.trade amount cts).1.variant = .iceberg vq vv1 → vv1 ≤ vq) ∧
    (∀ (o : Order) (vq vv vv1 : Int), o.variant = .iceberg vq vv → vv ≤ vq →
      (o.should_restart).1.variant = .iceberg vq vv1 → vv1 ≤ vq) ∧
    (∀ (o : Order) (vq vv : Int), (o.should_restart).2 = true →
      (o.should_restart).1.variant = .iceberg vq vv →
      vv ≤ (o.should_restart).1.volume) ∧
    (∀ (req : Submission) (ts : Time) (pk : Int), req.subPeak = some pk →
      (mkOrder req ts).variant = .iceberg pk pk) := by
  refine ⟨?_, ?_, ?_, ?_, ?_⟩
  · intro o amount cts vq vv h
    cases hv : o.variant with
    | regular => simp [Order.trade, hv] at h
    | iceberg vq0 vv0 =>
        by_cases hag : o.timestamp > cts
        · simp only [Order.trade, hv, if_pos hag] at h ⊢
          cases h
          exact min_le_left _ _
        · simp only [Order.trade, hv, if_neg hag] at h ⊢
          cases h
          exact min_le_left _ _
  · intro o amount cts vq vv vv1 ha hnn hv hle h
    by_cases hag : o.timestamp > cts
    · simp only [Order.trade, hv, if_pos hag] at h
      cases h
      exact le_trans (min_le_right _ _) hle
    · simp only [Order.trade, hv, if_neg hag] at h
      cases h
      have h1 : 0 ≤ min vv amount := le_min hnn ha
      have h2 := min_le_right (o.volume - min vv amount) (vv - min vv amount)
      omega
  · intro o vq vv vv1 hv hle h
    by_cases hc : (vv == 0 && decide (0 < o.volume)) = true
    · simp only [Order.should_restart, hv, if_pos hc] at h
      cases h
      exact min_le_right _ _
    · simp only [Order.should_restart, hv, if_neg hc] at h
      cases h
      exact hle
  · intro o vq vv hr h
    cases hv : o.variant with
    | regular => simp [Order.should_restart, hv] at hr
    | iceberg vq0 vv0 =>
        by_cases hc : (vv0 == 0 && decide (0 < o.volume)) = true
        · simp only [Order.should_restart, hv, if_pos hc] at h ⊢
          cases h
          exact min_le_left _ _
        · simp only [Order.should_restart, hv, if_neg hc] at hr
          simp at hr
  · intro req ts pk h
    simp [mkOrder, h]

/-- Witness for the amended C7: a concrete aggressive iceberg trade ends
with its visible slice clamped below its residual volume. -/
theorem iceberg_visible_bounds_witness :
    ((Order.mk "WB" 100 5 .B 2 (.iceberg 10 10)).trade 3 1).1.variant =
      .iceberg 10 2 ∧
    (2 : Int) ≤ ((Order.mk "WB" 100 5 .B 2 (.iceberg 10 10)).trade 3 1).1.volume :=
  ⟨by decide, iceberg_visible_bounds.1 (Order.mk "WB" 100 5 .B 2 (.iceberg 10 10))
    3 1 10 2 (by decide)⟩

/-- Witness for C4: a concrete completed iceberg with residual volume is
re-queued with the refilled visible slice and a fresh timestamp sample. -/
theorem should_restart_and_requeue_witness :
    (Order.mk "w4" 100 20 .S 0 (.iceberg 7 0)).is_complete = true ∧
    ((Order.mk "w4" 100 20 .S 0 (.iceberg 7 0)).should_restart).2 = true ∧
    settleOrder [Entry.mk 100 0 "w4"] (Order.mk "w4" 100 20 .S 0 (.iceberg 7 0)) 100 5 =
      (heapPush (heapPop [Entry.mk 100 0 "w4"])
        ⟨100, 5, ((Order.mk "w4" 100 20 .S 0 (.iceberg 7 0)).should_restart).1.id⟩,
        ((Order.mk "w4" 100 20 .S 0 (.iceberg 7 0)).should_restart).1, 5 + 1) :=
  ⟨rfl, by decide,
    should_restart_and_requeue.2.2.1 [Entry.mk 100 0 "w4"]
      (Order.mk "w4" 100 20 .S 0 (.iceberg 7 0)) 100 5 rfl (by decide)⟩

/-! ## C3: no cross after a matching pass -/

theorem check_matches_loop_exit_no_cross :
    ∀ (fuel : Nat) (st : Clob) (log : MatchLog) (trace : List (MatchKey × Int))
      (res : Clob × MatchLog × List (MatchKey × Int)),
      check_matches_loop fuel st log trace = some res → crossExists res.1 = false := by
  intro fuel
  induction fuel with
  | zero =>
      intro st log trace res h
      simp [check_matches_loop] at h
  | succ n ih =>
      intro st log trace res h
      by_cases hc : crossExists st = true
      · rw [check_matches_loop, if_pos hc] at h
        cases hit : matchIteration st log with
        | none => rw [hit] at h; exact absurd h (by simp)
        | some r =>
            obtain ⟨st1, log1, k, t⟩ := r
            rw [hit] at h
            exact ih st1 log1 (trace ++ [(k, t)]) res h
      · rw [check_matches_loop, if_neg hc] at h
        rw [Option.some_inj] at h
        rw [← h]
        exact Bool.eq_false_iff.mpr hc

/-- C3.  After any matching pass (and hence after every submission)
returns, no cross exists: whenever both side books are non-empty, the
best resting buy price is strictly less than the best resting sell price
(a buy entry's key is its negated price). -/
theorem no_cross_after_pass (fuel : Nat) (st st1 : Clob) (em : List (MatchKey × Int))
    (h : check_matches fuel st = some (st1, em)) :
    ∀ b s : Entry, heapPeek st1.buy_orders = some b →
      heapPeek st1.sell_orders = some s → -b.hkey < s.hkey := by
  intro b s hbb hss
  unfold check_matches at h
  cases hl : check_matches_loop fuel st [] [] with
  | none => rw [hl] at h; exact absurd h (by simp)
  | some r =>
      have hnc := check_matches_loop_exit_no_cross fuel st [] [] r hl
      rw [hl] at h
      have hpair : (r.1, emitLog r.2.1) = (st1, em) := Option.some_inj.mp h
      obtain ⟨h1, h2⟩ := Prod.mk.injEq .. ▸ hpair
      subst h1
      unfold crossExists at hnc
      rw [hbb, hss] at hnc
      have hnc2 : decide (s.hkey ≤ -b.hkey) = false := hnc
      exact not_le.mp (of_decide_eq_false hnc2)

/-- Witness for C3: after submitting a buy at 95 and then a sell at 100
into the empty engine, both books rest non-empty and 95 < 100. -/
theorem no_cross_after_pass_witness :
    -(Entry.mk (-95) 0 "A").hkey < (Entry.mk 100 1 "X").hkey :=
  no_cross_after_pass 1
    (insertOrder (insertOrder initClob ⟨"A", .B, 95, 50, none⟩) ⟨"X", .S, 100, 50, none⟩)
    (insertOrder (insertOrder initClob ⟨"A", .B, 95, 50, none⟩) ⟨"X", .S, 100, 50, none⟩)
    [] (by decide) (Entry.mk (-95) 0 "A") (Entry.mk 100 1 "X") (by decide) (by decide)

/-! ## C6: completed orders leave the side book, but never the id index -/

/-- C6 counterexample.  The claim fails on the code: no line of the source
ever deletes from `orders_book`.  After the fully crossing pair `A`/`X`
both completed orders are gone from the (now empty) side books, yet both
are still present in the id index, so the index does not contain exactly
the orders present in the side books. -/
theorem index_retains_completed_counterexample :
    ((submit 2 initClob ⟨"A", .B, 100, 50, none⟩).bind fun r =>
        submit 2 r.1 ⟨"X", .S, 100, 50, none⟩).map
      (fun r => (r.1.buy_orders.length, r.1.sell_orders.length,
        (dictGet r.1.ordersB "A").isSome, (dictGet r.1.ordersS "X").isSome)) =
      some (0, 0, true, true) := by
  decide

/-- C6 (amended).  A matching-pass iteration never removes any order from
the id index — both index sides only grow or get overwritten in place —
and an order that completes without restarting is removed from its side
book only: its heap root entry is popped while it remains in the id
index under the key it was looked up at. -/
theorem completed_order_leaves_book_not_index (st : Clob) (log : MatchLog)
    (bi si : OrderId) (b s : Order) :
    ((∀ i, (dictGet st.ordersB i).isSome = true →
        (dictGet (iterBody st log bi si b s).1.ordersB i).isSome = true) ∧
      (∀ i, (dictGet st.ordersS i).isSome = true →
        (dictGet (iterBody st log bi si b s).1.ordersS i).isSome = true)) ∧
    ((s.trade b.get_volume b.timestamp).1.is_complete = true →
      ((s.trade b.get_volume b.timestamp).1.should_restart).2 = false →
      (iterBody st log bi si b s).1.sell_orders = heapPop st.sell_orders ∧
      dictGet (iterBody st log bi si b s).1.ordersS si =
        some (s.trade b.get_volume b.timestamp).1) ∧
    ((b.trade (s.trade b.get_volume b.timestamp).2 s.timestamp).1.is_complete = true →
      ((b.trade (s.trade b.get_volume b.timestamp).2 s.timestamp).1.should_restart).2 =
        false →
      (iterBody st log bi si b s).1.buy_orders = heapPop st.buy_orders ∧
      dictGet (iterBody st log bi si b s).1.ordersB bi =
        some (b.trade (s.trade b.get_volume b.timestamp).2 s.timestamp).1) := by
  refine ⟨⟨?_, ?_⟩, ?_, ?_⟩
  · intro i h
    exact dictPut_isSome _ _ _ _ h
  · intro i h
    exact dictPut_isSome _ _ _ _ h
  · intro hc hr
    unfold iterBody
    dsimp only
    rw [settleOrder_pop _ _ _ _ hc hr]
    exact ⟨rfl, dictGet_dictPut_self _ _ _⟩
  · intro hc hr
    unfold iterBody
    dsimp only
    rw [settleOrder_pop _ _ _ _ hc hr]
    exact ⟨rfl, dictGet_dictPut_self _ _ _⟩

/-- Witness for the amended C6 at a concrete fully-crossing regular pair:
the completed sell is popped from the sell book but kept in the index. -/
theorem completed_order_leaves_book_not_index_witness :
    ((Order.mk "X" 100 50 .S 1 .regular).trade
        (Order.mk "A" 100 50 .B 0 .regular).get_volume
        (Order.mk "A" 100 50 .B 0 .regular).timestamp).1.is_complete = true ∧
    (iterBody
        (Clob.mk [("A", Order.mk "A" 100 50 .B 0 .regular)]
          [("X", Order.mk "X" 100 50 .S 1 .regular)]
          [Entry.mk (-100) 0 "A"] [Entry.mk 100 1 "X"] 2) [] "A" "X"
        (Order.mk "A" 100 50 .B 0 .regular)
        (Order.mk "X" 100 50 .S 1 .regular)).1.sell_orders =
      heapPop [Entry.mk 100 1 "X"] ∧
    dictGet (iterBody
        (Clob.mk [("A", Order.mk "A" 100 50 .B 0 .regular)]
          [("X", Order.mk "X" 100 50 .S 1 .regular)]
          [Entry.mk (-100) 0 "A"] [Entry.mk 100 1 "X"] 2) [] "A" "X"
        (Order.mk "A" 100 50 .B 0 .regular)
        (Order.mk "X" 100 50 .S 1 .regular)).1.ordersS "X" =
      some ((Order.mk "X" 100 50 .S 1 .regular).trade
        (Order.mk "A" 100 50 .B 0 .regular).get_volume
        (Order.mk "A" 100 50 .B 0 .regular).timestamp).1 :=
  ⟨by decide,
    ((completed_order_leaves_book_not_index
        (Clob.mk [("A", Order.mk "A" 100 50 .B 0 .regular)]
          [("X", Order.mk "X" 100 50 .S 1 .regular)]
          [Entry.mk (-100) 0 "A"] [Entry.mk 100 1 "X"] 2) [] "A" "X"
        (Order.mk "A" 100 50 .B 0 .regular)
        (Order.mk "X" 100 50 .S 1 .regular)).2.1 (by decide) (by decide)).1,
    ((completed_order_leaves_book_not_index
        (Clob.mk [("A", Order.mk "A" 100 50 .B 0 .regular)]
          [("X", Order.mk "X" 100 50 .S 1 .regular)]
          [Entry.mk (-100) 0 "A"] [Entry.mk 100 1 "X"] 2) [] "A" "X"
        (Order.mk "A" 100 50 .B 0 .regular)
        (Order.mk "X" 100 50 .S 1 .regular)).2.1 (by decide) (by decide)).2⟩

/-! ## C8: zero-volume submissions are not a no-op -/

/-- C8 counterexample.  The claim fails on the code twice: a zero-volume
buy submitted into the empty engine rests in the buy book (there is no
insertion-time completion check), and a zero-volume buy submitted against
a resting crossing sell emits a zero-amount trade record. -/
theorem zero_volume_not_noop_counterexample :
    (submit 1 initClob ⟨"A", .B, 100, 0, none⟩).map
        (fun r => (r.1.buy_orders, r.2)) =
      some ([⟨-100, 0, "A"⟩], []) ∧
    ((submit 2 initClob ⟨"X", .S, 100, 50, none⟩).bind fun r =>
        submit 2 r.1 ⟨"A", .B, 100, 0, none⟩).map (fun r => r.2) =
      some [(("A", "X", 100), 0)] :=
  ⟨by decide, by decide⟩

/-- C8 (amended).  Submitting an order with volume 0 is not a no-op: at a
price that does not cross the opposite best it rests in its side book
like any other order — the pass emits no trade, the order's entry is
pushed onto its side book, and every other id-index record is unchanged
(while at a crossing price it instead emits a zero-amount trade record,
see the counterexample). -/
theorem zero_volume_submission_rests (fuel : Nat) (st : Clob) (req : Submission)
    (_hv : req.subVolume = 0) (hf : 1 ≤ fuel)
    (hnc : crossExists (insertOrder st req) = false) :
    submit fuel st req = some (insertOrder st req, []) ∧
    (req.subSide = .B → (insertOrder st req).buy_orders =
      ⟨-req.subPrice, st.clock, req.subId⟩ :: st.buy_orders) ∧
    (req.subSide = .S → (insertOrder st req).sell_orders =
      ⟨req.subPrice, st.clock, req.subId⟩ :: st.sell_orders) ∧
    (∀ i, i ≠ req.subId →
      dictGet (insertOrder st req).ordersB i = dictGet st.ordersB i ∧
      dictGet (insertOrder st req).ordersS i = dictGet st.ordersS i) := by
  obtain ⟨n, rfl⟩ : ∃ n, fuel = n + 1 := by
    cases fuel with
    | zero => omega
    | succ n => exact ⟨n, rfl⟩
  refine ⟨?_, ?_, ?_, ?_⟩
  · unfold submit check_matches
    rw [check_matches_loop, if_neg (by simp [hnc])]
    rfl
  · intro hside
    simp [insertOrder, mkOrder, heapPush, hside]
  · intro hside
    simp [insertOrder, mkOrder, heapPush, hside]
  · intro i hi
    cases hside : req.subSide with
    | B =>
        refine ⟨?_, ?_⟩
        · simp only [insertOrder, hside]
          exact dictGet_dictPut_ne _ _ _ _ hi
        · simp [insertOrder, hside]
    | S =>
        refine ⟨?_, ?_⟩
        · simp [insertOrder, hside]
        · simp only [insertOrder, hside]
          exact dictGet_dictPut_ne _ _ _ _ hi

/-- Witness for the amended C8: submitting `A` with volume 0 into the
empty engine leaves it resting with no emitted trade. -/
theorem zero_volume_submission_rests_witness :
    submit 1 initClob ⟨"A", .B, 100, 0, none⟩ =
      some (insertOrder initClob ⟨"A", .B, 100, 0, none⟩, []) ∧
    dictGet (insertOrder initClob ⟨"A", .B, 100, 0, none⟩).ordersS "Z" =
      dictGet initClob.ordersS "Z" :=
  ⟨(zero_volume_submission_rests 1 initClob ⟨"A", .B, 100, 0, none⟩ rfl (by decide)
      (by decide)).1,
    ((zero_volume_submission_rests 1 initClob ⟨"A", .B, 100, 0, none⟩ rfl (by decide)
      (by decide)).2.2.2 "Z" (by decide)).2⟩

/-! ## C5: per-key aggregation and first-seen emission order -/

/-- The total amount traded for key `k` over the iterations of one pass
(read off the ghost iteration trace). -/
def traceSum (trace : List (MatchKey × Int)) (k : MatchKey) : Int :=
  ((trace.filter fun p => decide (p.1 = k)).map fun p => p.2).sum

theorem traceSum_append_one (trace : List (MatchKey × Int)) (k k0 : MatchKey) (t0 : Int) :
    traceSum (trace ++ [(k0, t0)]) k =
      traceSum trace k + (if k0 = k then t0 else 0) := by
  unfold traceSum
  rw [List.filter_append, List.map_append, List.sum_append]
  by_cases h : k0 = k
  · simp [h]
  · simp [h]

theorem traceSum_of_not_mem (trace : List (MatchKey × Int)) (k : MatchKey)
    (h : ∀ t, (k, t) ∉ trace) : traceSum trace k = 0 := by
  unfold traceSum
  have : trace.filter (fun p => decide (p.1 = k)) = [] := by
    rw [List.filter_eq_nil_iff]
    intro p hp hdec
    rcases p with ⟨k1, t1⟩
    have hk : k1 = k := by simpa using hdec
    subst hk
    exact h t1 hp
  rw [this]
  rfl

theorem logBump_map_fst (log : MatchLog) (k : MatchKey) (t : Int) :
    (logBump log k t).map (fun p => p.1) = log.map fun p => p.1 := by
  unfold logBump
  rw [List.map_map]
  apply List.map_congr_left
  intro p _
  by_cases h : p.1 = k
  · simp [h]
  · simp [h]

theorem logBump_map_firstSeen (log : MatchLog) (k : MatchKey) (t : Int) :
    (logBump log k t).map (fun p => p.2.firstSeen) = log.map fun p => p.2.firstSeen := by
  unfold logBump
  rw [List.map_map]
  apply List.map_congr_left
  intro p _
  by_cases h : p.1 = k
  · simp [h]
  · simp [h]

theorem logMem_logBump (log : MatchLog) (k0 : MatchKey) (t : Int) (k : MatchKey) :
    logMem (logBump log k0 t) k = logMem log k := by
  unfold logMem logBump
  rw [List.any_map]
  congr 1
  funext p
  by_cases h : p.1 = k0
  · simp [h, Function.comp]
  · simp [h, Function.comp]

theorem logMem_append_one (log : MatchLog) (k0 : MatchKey) (e : LogEntry) (k : MatchKey) :
    logMem (log ++ [(k0, e)]) k = (logMem log k || decide (k0 = k)) := by
  unfold logMem
  rw [List.any_append]
  simp

theorem logMem_iff_mem_keys (log : MatchLog) (k : MatchKey) :
    logMem log k = true ↔ k ∈ log.map fun p => p.1 := by
  unfold logMem
  rw [List.any_eq_true]
  constructor
  · rintro ⟨p, hp, hdec⟩
    have hk : p.1 = k := by simpa using hdec
    rw [← hk]
    exact List.mem_map_of_mem _ hp
  · intro hk
    rw [List.mem_map] at hk
    obtain ⟨p, hp, he⟩ := hk
    exact ⟨p, hp, by simpa using he⟩

theorem mem_logBump (log : MatchLog) (k0 : MatchKey) (t0 : Int) (k : MatchKey)
    (e : LogEntry) (h : (k, e) ∈ logBump log k0 t0) :
    ∃ e0 : LogEntry, (k, e0) ∈ log ∧
      ((k ≠ k0 ∧ e = e0) ∨ (k = k0 ∧ e = { e0 with amount := e0.amount + t0 })) := by
  unfold logBump at h
  rw [List.mem_map] at h
  obtain ⟨p, hp, heq⟩ := h
  by_cases hk : p.1 = k0
  · rw [if_pos hk] at heq
    refine ⟨p.2, ?_, Or.inr ⟨?_, ?_⟩⟩
    · have h1 : p.1 = k := congrArg Prod.fst heq
      rw [← h1]
      exact hp
    · have h1 : p.1 = k := congrArg Prod.fst heq
      rw [← h1, hk]
    · exact (congrArg Prod.snd heq).symm
  · rw [if_neg hk] at heq
    subst heq
    exact ⟨e, hp, Or.inl ⟨hk, rfl⟩⟩

/-- The relation maintained between the match log, the iteration trace and
the clock throughout one matching pass. -/
def LogTraceInv (clock : Time) (log : MatchLog) (trace : List (MatchKey × Int)) : Prop :=
  (log.map fun p => p.1).Nodup ∧
  (∀ k, logMem log k = true ↔ ∃ t, (k, t) ∈ trace) ∧
  (∀ k e, (k, e) ∈ log → e.amount = traceSum trace k) ∧
  List.Sorted (· < ·) (log.map fun p => p.2.firstSeen) ∧
  (∀ p ∈ log, p.2.firstSeen < clock)

theorem logTraceInv_nil (clock : Time) : LogTraceInv clock [] [] := by
  refine ⟨List.nodup_nil, fun k => ?_, fun k e h => absurd h (List.not_mem_nil _), 
    List.sorted_nil, fun p h => absurd h (List.not_mem_nil _)⟩
  simp [logMem]

theorem settleOrder_clock_ge (book : List Entry) (o : Order) (hkey : Price) (c : Time) :
    c ≤ (settleOrder book o hkey c).2.2 := by
  rcases Bool.eq_false_or_eq_true o.is_complete with hc | hc
  · rcases Bool.eq_false_or_eq_true (o.should_restart).2 with hr | hr
    · rw [settleOrder_restart _ _ _ _ hc hr]
      exact Nat.le_succ c
    · rw [settleOrder_pop _ _ _ _ hc hr]
  · rw [settleOrder_not_complete _ _ _ _ hc]

theorem iterBody_log_of_mem (st : Clob) (log : MatchLog) (bi si : OrderId)
    (b s : Order) (hm : logMem log (matchKeyOf b s) = true) :
    (iterBody st log bi si b s).2.1 =
      logBump log (matchKeyOf b s) (s.trade b.get_volume b.timestamp).2 := by
  unfold iterBody
  dsimp only
  rw [if_pos hm]

theorem iterBody_log_of_new (st : Clob) (log : MatchLog) (bi si : OrderId)
    (b s : Order) (hm : logMem log (matchKeyOf b s) = false) :
    (iterBody st log bi si b s).2.1 =
      log ++ [(matchKeyOf b s,
        ⟨st.clock, (s.trade b.get_volume b.timestamp).2⟩)] := by
  unfold iterBody
  dsimp only
  rw [if_neg (by simp [hm])]

theorem iterBody_clock_ge (st : Clob) (log : MatchLog) (bi si : OrderId)
    (b s : Order) : st.clock ≤ (iterBody st log bi si b s).1.clock := by
  unfold iterBody
  dsimp only
  by_cases hm : logMem log (matchKeyOf b s) = true
  · rw [if_pos hm]
    dsimp only
    exact le_trans (settleOrder_clock_ge _ _ _ _) (settleOrder_clock_ge _ _ _ _)
  · rw [if_neg hm]
    dsimp only
    exact le_trans (Nat.le_succ _)
      (le_trans (settleOrder_clock_ge _ _ _ _) (settleOrder_clock_ge _ _ _ _))

theorem iterBody_clock_gt_of_new (st : Clob) (log : MatchLog) (bi si : OrderId)
    (b s : Order) (hm : logMem log (matchKeyOf b s) = false) :
    st.clock < (iterBody st log bi si b s).1.clock := by
  unfold iterBody
  dsimp only
  rw [if_neg (by simp [hm])]
  dsimp only
  exact Nat.lt_of_lt_of_le (Nat.lt_succ_self _)
    (le_trans (settleOrder_clock_ge _ _ _ _) (settleOrder_clock_ge _ _ _ _))

theorem iterBody_logTraceInv (st : Clob) (log : MatchLog)
    (trace : List (MatchKey × Int)) (bi si : OrderId) (b s : Order)
    (hinv : LogTraceInv st.clock log trace) :
    LogTraceInv (iterBody st log bi si b s).1.clock
      (iterBody st log bi si b s).2.1
      (trace ++ [(matchKeyOf b s, (s.trade b.get_volume b.timestamp).2)]) := by
  obtain ⟨hnd, hmem, hamt, hsort, hlt⟩ := hinv
  have hclk := iterBody_clock_ge st log bi si b s
  by_cases hm : logMem log (matchKeyOf b s) = true
  · rw [iterBody_log_of_mem st log bi si b s hm]
    refine ⟨?_, ?_, ?_, ?_, ?_⟩
    · rw [logBump_map_fst]
      exact hnd
    · intro k
      rw [logMem_logBump]
      constructor
      · intro h
        obtain ⟨t, ht⟩ := (hmem k).mp h
        exact ⟨t, List.mem_append_left _ ht⟩
      · rintro ⟨t, ht⟩
        rcases List.mem_append.mp ht with h | h
        · exact (hmem k).mpr ⟨t, h⟩
        · have hk : k = matchKeyOf b s ∧ t = (s.trade b.get_volume b.timestamp).2 := by
            simpa using h
          rw [hk.1]
          exact hm
    · intro k e he
      obtain ⟨e0, he0, hcases⟩ := mem_logBump log _ _ k e he
      rcases hcases with ⟨hne, heq⟩ | ⟨hkk, heq⟩
      · rw [heq, traceSum_append_one, if_neg (fun hh => hne hh.symm), add_zero]
        exact hamt k e0 he0
      · have he0k : (matchKeyOf b s, e0) ∈ log := hkk ▸ he0
        rw [heq, hkk, traceSum_append_one, if_pos rfl]
        show e0.amount + _ = _
        rw [hamt _ e0 he0k]
    · rw [logBump_map_firstSeen]
      exact hsort
    · intro p hp
      unfold logBump at hp
      rw [List.mem_map] at hp
      obtain ⟨p0, hp0, he⟩ := hp
      have hfs : p.2.firstSeen = p0.2.firstSeen := by
        by_cases hk : p0.1 = matchKeyOf b s
        · rw [if_pos hk] at he
          rw [← he]
        · rw [if_neg hk] at he
          rw [← he]
      rw [hfs]
      exact Nat.lt_of_lt_of_le (hlt p0 hp0) hclk
  · have hm2 : logMem log (matchKeyOf b s) = false := Bool.eq_false_iff.mpr hm
    have hgt := iterBody_clock_gt_of_new st log bi si b s hm2
    have hnotkey : matchKeyOf b s ∉ log.map fun p => p.1 := by
      intro hk
      rw [← logMem_iff_mem_keys] at hk
      rw [hm2] at hk
      exact absurd hk (by simp)
    have hnotrace : ∀ t, (matchKeyOf b s, t) ∉ trace := by
      intro t ht
      exact hm ((hmem _).mpr ⟨t, ht⟩)
    rw [iterBody_log_of_new st log bi si b s hm2]
    refine ⟨?_, ?_, ?_, ?_, ?_⟩
    · rw [List.map_append]
      refine List.Nodup.append hnd (by simp) ?_
      intro a ha hb
      have : a = matchKeyOf b s := by simpa using hb
      subst this
      exact hnotkey ha
    · intro k
      rw [logMem_append_one]
      constructor
      · intro h
        rcases Bool.or_eq_true_iff.mp h with h | h
        · obtain ⟨t, ht⟩ := (hmem k).mp h
          exact ⟨t, List.mem_append_left _ ht⟩
        · have hk : matchKeyOf b s = k := of_decide_eq_true h
          subst hk
          exact ⟨(s.trade b.get_volume b.timestamp).2,
            List.mem_append_right _ (by simp)⟩
      · rintro ⟨t, ht⟩
        rcases List.mem_append.mp ht with h | h
        · exact Bool.or_eq_true_iff.mpr (Or.inl ((hmem k).mpr ⟨t, h⟩))
        · have hk : k = matchKeyOf b s ∧ t = (s.trade b.get_volume b.timestamp).2 := by
            simpa using h
          exact Bool.or_eq_true_iff.mpr (Or.inr (by rw [hk.1]; simp))
    · intro k e he
      rcases List.mem_append.mp he with h | h
      · have hne : k ≠ matchKeyOf b s := by
          intro hk
          subst hk
          exact hnotkey (List.mem_map_of_mem (fun p => p.1) h)
        rw [traceSum_append_one, if_neg (fun hh => hne hh.symm), add_zero]
        exact hamt k e h
      · have hk : k = matchKeyOf b s ∧
            e = ⟨st.clock, (s.trade b.get_volume b.timestamp).2⟩ := by
          simpa using h
        obtain ⟨rfl, rfl⟩ := hk
        rw [traceSum_append_one, if_pos rfl, traceSum_of_not_mem trace _ hnotrace,
          zero_add]
    · rw [List.map_append]
      refine List.pairwise_append.mpr ⟨hsort, by simp, ?_⟩
      intro a ha y hy
      have : y = st.clock := by simpa using hy
      subst this
      rw [List.mem_map] at ha
      obtain ⟨p, hp, he⟩ := ha
      rw [← he]
      exact hlt p hp
    · intro p hp
      rcases List.mem_append.mp hp with h | h
      · exact Nat.lt_of_lt_of_le (Nat.lt_of_lt_of_le (hlt p h) (Nat.le_succ _)) hgt
      · have : p = (matchKeyOf b s, ⟨st.clock, (s.trade b.get_volume b.timestamp).2⟩) := by
          simpa using h
        subst this
        exact hgt

theorem matchIteration_inversion (st : Clob) (log : MatchLog)
    (x : Clob × MatchLog × MatchKey × Int) (h : matchIteration st log = some x) :
    ∃ (bTop sTop : Entry) (b s : Order),
      heapPeek st.buy_orders = some bTop ∧ heapPeek st.sell_orders = some sTop ∧
      dictGet st.ordersB bTop.hid = some b ∧ dictGet st.ordersS sTop.hid = some s ∧
      x = iterBody st log bTop.hid sTop.hid b s := by
  unfold matchIteration at h
  cases hb : heapPeek st.buy_orders with
  | none => rw [hb] at h; exact absurd h (by simp)
  | some bTop =>
      cases hs : heapPeek st.sell_orders with
      | none => rw [hb, hs] at h; exact absurd h (by simp)
      | some sTop =>
          rw [hb, hs] at h
          dsimp only at h
          cases hob : dictGet st.ordersB bTop.hid with
          | none => rw [hob] at h; exact absurd h (by simp)
          | some b =>
              cases hos : dictGet st.ordersS sTop.hid with
              | none => rw [hob, hos] at h; exact absurd h (by simp)
              | some s =>
                  rw [hob, hos] at h
                  exact ⟨bTop, sTop, b, s, rfl, rfl, hob, hos,
                    (Option.some_inj.mp h).symm⟩

theorem check_matches_loop_logTraceInv :
    ∀ (fuel : Nat) (st : Clob) (log : MatchLog) (trace : List (MatchKey × Int))
      (res : Clob × MatchLog × List (MatchKey × Int)),
      check_matches_loop fuel st log trace = some res →
      LogTraceInv st.clock log trace →
      LogTraceInv res.1.clock res.2.1 res.2.2 := by
  intro fuel
  induction fuel with
  | zero =>
      intro st log trace res h _
      simp [check_matches_loop] at h
  | succ n ih =>
      intro st log trace res h hinv
      by_cases hc : crossExists st = true
      · rw [check_matches_loop, if_pos hc] at h
        cases hit : matchIteration st log with
        | none => rw [hit] at h; exact absurd h (by simp)
        | some r =>
            obtain ⟨st1, log1, k, t⟩ := r
            rw [hit] at h
            obtain ⟨bTop, sTop, b, s, hb, hs, hob, hos, hx⟩ :=
              matchIteration_inversion st log _ hit
            have hstep := iterBody_logTraceInv st log trace bTop.hid sTop.hid b s hinv
            have h1 : st1 = (iterBody st log bTop.hid sTop.hid b s).1 :=
              congrArg Prod.fst hx
            have h2 : log1 = (iterBody st log bTop.hid sTop.hid b s).2.1 :=
              congrArg (fun y => y.2.1) hx
            have h3 : k = matchKeyOf b s := congrArg (fun y => y.2.2.1) hx
            have h4 : t = (s.trade b.get_volume b.timestamp).2 :=
              congrArg (fun y => y.2.2.2) hx
            subst h1
            subst h2
            subst h3
            subst h4
            exact ih _ _ _ res h hstep
      · rw [check_matches_loop, if_neg hc] at h
        obtain rfl := Option.some_inj.mp h
        exact hinv

theorem insertionSort_eq_of_sorted :
    ∀ l : MatchLog, List.Sorted (· < ·) (l.map fun p => p.2.firstSeen) →
      l.insertionSort logLe = l := by
  intro l
  induction l with
  | nil => intro _; rfl
  | cons a l ih =>
      intro hs
      rw [List.map_cons, List.sorted_cons] at hs
      obtain ⟨ha, hs2⟩ := hs
      show List.orderedInsert logLe a (List.insertionSort logLe l) = a :: l
      rw [ih hs2]
      cases l with
      | nil => rfl
      | cons c t =>
          have hac : logLe a c :=
            le_of_lt (ha c.2.firstSeen (by simp))
          exact List.orderedInsert_of_le logLe _ hac

theorem emitLog_of_sorted (log : MatchLog)
    (h : List.Sorted (· < ·) (log.map fun p => p.2.firstSeen)) :
    emitLog log = log.map fun p => (p.1, p.2.amount) := by
  unfold emitLog
  rw [insertionSort_eq_of_sorted log h]

/-- C5.  Within one matching pass, all loop iterations that produce the
same `(aggressor_id, passive_id, price)` match key are aggregated into a
single log record whose amount is the sum of the per-iteration traded
amounts; the keys held in the log are exactly the keys of the recorded
iterations, each held once; the record first-seen times are strictly
ascending in insertion order; and the pass finally emits exactly these
aggregated records sorted ascending by first-seen wall-clock time. -/
theorem trades_aggregated_and_sorted_by_first_seen (fuel : Nat) (st st1 : Clob)
    (log1 : MatchLog) (trace1 : List (MatchKey × Int))
    (h : check_matches_loop fuel st [] [] = some (st1, log1, trace1)) :
    (∀ k e, (k, e) ∈ log1 → e.amount = traceSum trace1 k) ∧
    (log1.map fun p => p.1).Nodup ∧
    (∀ k, logMem log1 k = true ↔ ∃ t, (k, t) ∈ trace1) ∧
    List.Sorted (· < ·) (log1.map fun p => p.2.firstSeen) ∧
    check_matches fuel st = some (st1, log1.map fun p => (p.1, p.2.amount)) := by
  have hinv := check_matches_loop_logTraceInv fuel st [] [] (st1, log1, trace1) h
    (logTraceInv_nil st.clock)
  obtain ⟨hnd, hmem, hamt, hsort, _⟩ := hinv
  refine ⟨hamt, hnd, hmem, hsort, ?_⟩
  unfold check_matches
  rw [h]
  show some (st1, emitLog log1) = _
  rw [emitLog_of_sorted log1 hsort]

/-- Witness for C5 at the concrete fully-crossing pair `A`/`X`: the single
iteration's record, its aggregation and its emission. -/
theorem trades_aggregated_witness :
    (([(("X", "A", (100 : Price)), LogEntry.mk 2 50)].map
        fun p => p.1).Nodup) ∧
    List.Sorted (· < ·)
      ([(("X", "A", (100 : Price)), LogEntry.mk 2 50)].map
        fun p => p.2.firstSeen) :=
  have h := trades_aggregated_and_sorted_by_first_seen 2
    (insertOrder (insertOrder initClob ⟨"A", .B, 100, 50, none⟩)
      ⟨"X", .S, 100, 50, none⟩)
    (Clob.mk [("A", Order.mk "A" 100 0 .B 0 .regular)]
      [("X", Order.mk "X" 100 0 .S 1 .regular)] [] [] 3)
    [(("X", "A", (100 : Price)), LogEntry.mk 2 50)]
    [(("X", "A", (100 : Price)), 50)] (by rfl)
  ⟨h.2.1, h.2.2.2.1⟩

/-! ## C10: termination of the matching pass -/

theorem extractMin_ne_none (e : Entry) (l : List Entry) :
    extractMin (e :: l) ≠ none := by
  unfold extractMin
  cases h : extractMin l with
  | none => simp
  | some p =>
      obtain ⟨m, rest⟩ := p
      by_cases hlt : entryLt m e = true <;> simp [hlt]

theorem extractMin_perm :
    ∀ (l : List Entry) (m : Entry) (rest : List Entry),
      extractMin l = some (m, rest) → l.Perm (m :: rest) := by
  intro l
  induction l with
  | nil => intro m rest h; simp [extractMin] at h
  | cons e tail ih =>
      intro m rest h
      cases tail with
      | nil =>
          simp only [extractMin] at h
          obtain ⟨rfl, rfl⟩ := Prod.mk.injEq .. ▸ Option.some_inj.mp h
          exact List.Perm.refl _
      | cons a b =>
          obtain ⟨⟨m0, rest0⟩, ht⟩ : ∃ p, extractMin (a :: b) = some p := by
            cases hx : extractMin (a :: b) with
            | none => exact absurd hx (extractMin_ne_none a b)
            | some p => exact ⟨p, rfl⟩
          unfold extractMin at h
          rw [ht] at h
          dsimp only at h
          have hperm0 := ih m0 rest0 ht
          by_cases hlt : entryLt m0 e = true
          · rw [if_pos hlt] at h
            obtain ⟨rfl, rfl⟩ := Prod.mk.injEq .. ▸ Option.some_inj.mp h
            exact (List.Perm.cons e hperm0).trans (List.Perm.swap _ e rest0)
          · rw [if_neg hlt] at h
            obtain ⟨rfl, rfl⟩ := Prod.mk.injEq .. ▸ Option.some_inj.mp h
            exact List.Perm.refl _

theorem heapPeek_extractMin (l : List Entry) (m : Entry)
    (h : heapPeek l = some m) : ∃ rest, extractMin l = some (m, rest) := by
  unfold heapPeek at h
  cases hx : extractMin l with
  | none => rw [hx] at h; exact absurd h (by simp)
  | some p =>
      obtain ⟨m1, rest⟩ := p
      rw [hx] at h
      have hm : m1 = m := by simpa using h
      subst hm
      exact ⟨rest, rfl⟩

/-- The data-model goodness of a resting order: positive residual volume
and, for an iceberg, positive visible slice and peak with the visible
slice bounded by the volume (spec data model: `0 < peak` and
`visible ≤ min(volume, peak)` with a positive resting slice). -/
def goodOrder (o : Order) : Prop :=
  0 < o.volume ∧
    ∀ vq vv : Int, o.variant = .iceberg vq vv → 0 < vv ∧ vv ≤ o.volume ∧ 0 < vq

/-- Well-formedness of one side book against its id index: entry ids are
pairwise distinct and each entry resolves to a good order recorded under
its own id. -/
def bookWF (book : List Entry) (d : Dict) : Prop :=
  (book.map Entry.hid).Nodup ∧
  ∀ e ∈ book, ∃ o, dictGet d e.hid = some o ∧ o.id = e.hid ∧ goodOrder o

/-- Well-formedness of the engine state: both side books are well-formed
against their id indices. -/
def engineWF (st : Clob) : Prop :=
  bookWF st.buy_orders st.ordersB ∧ bookWF st.sell_orders st.ordersS

/-- The residual volume a heap entry accounts for. -/
def entryVol (d : Dict) (e : Entry) : Nat :=
  match dictGet d e.hid with
  | some o => o.volume.toNat
  | none => 0

/-- The termination measure: total resting residual volume referenced from
the two side books. -/
def clobMeasure (st : Clob) : Nat :=
  ((st.buy_orders.map (entryVol st.ordersB)).sum +
    (st.sell_orders.map (entryVol st.ordersS)).sum)

theorem goodOrder_displayed_pos (o : Order) (h : goodOrder o) :
    0 < o.get_volume := by
  obtain ⟨hv, hi⟩ := h
  cases hvar : o.variant with
  | regular => simpa [Order.get_volume, hvar] using hv
  | iceberg vq vv =>
      have := hi vq vv hvar
      simpa [Order.get_volume, hvar] using this.1

theorem trade_volume_eq (o : Order) (amount : Int) (cts : Time) :
    (o.trade amount cts).1.volume = o.volume - (o.trade amount cts).2 := by
  cases hv : o.variant with
  | regular => simp [Order.trade, hv]
  | iceberg vq vv =>
      by_cases h : o.timestamp > cts
      · simp [Order.trade, hv, if_pos h]
      · simp [Order.trade, hv, if_neg h]

theorem trade_id (o : Order) (amount : Int) (cts : Time) :
    (o.trade amount cts).1.id = o.id := by
  cases hv : o.variant with
  | regular => simp [Order.trade, hv]
  | iceberg vq vv =>
      by_cases h : o.timestamp > cts
      · simp [Order.trade, hv, if_pos h]
      · simp [Order.trade, hv, if_neg h]

theorem trade_vq (o : Order) (amount : Int) (cts : Time) (vq vv : Int)
    (h : o.variant = .iceberg vq vv) :
    ∃ vv1, (o.trade amount cts).1.variant = .iceberg vq vv1 := by
  by_cases hag : o.timestamp > cts
  · refine ⟨min (o.volume - min o.volume amount) vv, ?_⟩
    simp [Order.trade, h, if_pos hag]
  · refine ⟨min (o.volume - min vv amount) (vv - min vv amount), ?_⟩
    simp [Order.trade, h, if_neg hag]

theorem trade_pos (o : Order) (amount : Int) (cts : Time) (hg : goodOrder o)
    (ha : 0 < amount) : 1 ≤ (o.trade amount cts).2 := by
  obtain ⟨hv, hi⟩ := hg
  cases hvar : o.variant with
  | regular =>
      simp only [Order.trade, hvar]
      exact le_min hv ha
  | iceberg vq vv =>
      obtain ⟨hvv, _, _⟩ := hi vq vv hvar
      by_cases h : o.timestamp > cts
      · simp only [Order.trade, hvar, if_pos h]
        exact le_min hv ha
      · simp only [Order.trade, hvar, if_neg h]
        exact le_min hvv ha

theorem trade_nonneg (o : Order) (amount : Int) (cts : Time) (hg : goodOrder o)
    (ha : 0 ≤ amount) : 0 ≤ (o.trade amount cts).2 := by
  obtain ⟨hv, hi⟩ := hg
  cases hvar : o.variant with
  | regular =>
      simp only [Order.trade, hvar]
      exact le_min (le_of_lt hv) ha
  | iceberg vq vv =>
      obtain ⟨hvv, _, _⟩ := hi vq vv hvar
      by_cases h : o.timestamp > cts
      · simp only [Order.trade, hvar, if_pos h]
        exact le_min (le_of_lt hv) ha
      · simp only [Order.trade, hvar, if_neg h]
        exact le_min (le_of_lt hvv) ha

theorem trade_le_volume (o : Order) (amount : Int) (cts : Time) (hg : goodOrder o) :
    (o.trade amount cts).2 ≤ o.volume := by
  obtain ⟨hv, hi⟩ := hg
  cases hvar : o.variant with
  | regular =>
      simp only [Order.trade, hvar]
      exact min_le_left _ _
  | iceberg vq vv =>
      obtain ⟨_, hle, _⟩ := hi vq vv hvar
      by_cases h : o.timestamp > cts
      · simp only [Order.trade, hvar, if_pos h]
        exact min_le_left _ _
      · simp only [Order.trade, hvar, if_neg h]
        exact le_trans (min_le_left _ _) hle

theorem trade_good_of_not_complete (o : Order) (amount : Int) (cts : Time)
    (hg : goodOrder o)
    (hc : (o.trade amount cts).1.is_complete = false) :
    goodOrder (o.trade amount cts).1 := by
  obtain ⟨hv, hi⟩ := hg
  cases hvar : o.variant with
  | regular =>
      have hvol : (o.trade amount cts).1.volume = o.volume - min o.volume amount := by
        simp [Order.trade, hvar]
      have hvar1 : (o.trade amount cts).1.variant = .regular := by
        simp [Order.trade, hvar]
      have hne : (o.trade amount cts).1.volume ≠ 0 := by
        simp only [Order.is_complete, hvar1] at hc
        simpa using hc
      have h1 := min_le_left o.volume amount
      refine ⟨?_, fun vq vv h => ?_⟩
      · rw [hvol] at hne ⊢
        omega
      · rw [hvar1] at h
        simp at h
  | iceberg vq vv =>
      obtain ⟨hvv, hle, hvq⟩ := hi vq vv hvar
      by_cases hag : o.timestamp > cts
      · have hvol : (o.trade amount cts).1.volume =
            o.volume - min o.volume amount := by
          simp [Order.trade, hvar, if_pos hag]
        have hvar1 : (o.trade amount cts).1.variant =
            .iceberg vq (min (o.volume - min o.volume amount) vv) := by
          simp [Order.trade, hvar, if_pos hag]
        have hne : min (o.volume - min o.volume amount) vv ≠ 0 := by
          simp only [Order.is_complete, hvar1] at hc
          simpa using hc
        have h1 := min_le_left o.volume amount
        have h2 := min_le_left (o.volume - min o.volume amount) vv
        have h4 : (0:Int) ≤ min (o.volume - min o.volume amount) vv :=
          le_min (by omega) (by omega)
        refine ⟨?_, fun vq1 vv1 h => ?_⟩
        · rw [hvol]
          omega
        · rw [hvar1] at h
          injection h with ha hb
          subst ha
          subst hb
          refine ⟨by omega, ?_, hvq⟩
          rw [hvol]
          exact h2
      · have hvol : (o.trade amount cts).1.volume = o.volume - min vv amount := by
          simp [Order.trade, hvar, if_neg hag]
        have hvar1 : (o.trade amount cts).1.variant =
            .iceberg vq (min (o.volume - min vv amount) (vv - min vv amount)) := by
          simp [Order.trade, hvar, if_neg hag]
        have hne : min (o.volume - min vv amount) (vv - min vv amount) ≠ 0 := by
          simp only [Order.is_complete, hvar1] at hc
          simpa using hc
        have h1 := min_le_left vv amount
        have h2 := min_le_left (o.volume - min vv amount) (vv - min vv amount)
        have h4 : (0:Int) ≤ min (o.volume - min vv amount) (vv - min vv amount) :=
          le_min (by omega) (by omega)
        refine ⟨?_, fun vq1 vv1 h => ?_⟩
        · rw [hvol]
          omega
        · rw [hvar1] at h
          injection h with ha hb
          subst ha
          subst hb
          refine ⟨by omega, ?_, hvq⟩
          rw [hvol]
          exact h2

theorem should_restart_id (o : Order) : (o.should_restart).1.id = o.id := by
  cases hv : o.variant with
  | regular => simp [Order.should_restart, hv]
  | iceberg vq vv =>
      by_cases hc : (vv == 0 && decide (0 < o.volume)) = true
      · simp [Order.should_restart, hv, hc]
      · simp [Order.should_restart, hv, hc]

theorem should_restart_volume (o : Order) :
    (o.should_restart).1.volume = o.volume := by
  cases hv : o.variant with
  | regular => simp [Order.should_restart, hv]
  | iceberg vq vv =>
      by_cases hc : (vv == 0 && decide (0 < o.volume)) = true
      · simp [Order.should_restart, hv, hc]
      · simp [Order.should_restart, hv, hc]

theorem restart_good (o : Order)
    (hvq : ∀ vq vv : Int, o.variant = .iceberg vq vv → 0 < vq)
    (hr : (o.should_restart).2 = true) : goodOrder (o.should_restart).1 := by
  cases hv : o.variant with
  | regular => simp [Order.should_restart, hv] at hr
  | iceberg vq vv =>
      by_cases hc : (vv == 0 && decide (0 < o.volume)) = true
      · have hq := hvq vq vv hv
        have hvol : 0 < o.volume := by
          have := (Bool.and_eq_true _ _).mp hc
          exact of_decide_eq_true this.2
        simp only [Order.should_restart, hv, if_pos hc]
        refine ⟨hvol, fun vq1 vv1 hh => ?_⟩
        cases hh
        exact ⟨lt_min hvol hq, min_le_left _ _, hq⟩
      · simp [Order.should_restart, hv, hc] at hr

theorem heapPop_eq (book : List Entry) (m : Entry) (rest : List Entry)
    (hx : extractMin book = some (m, rest)) : heapPop book = rest := by
  unfold heapPop
  rw [hx]
  rfl

theorem bookWF_perm_facts (book : List Entry) (d : Dict) (m : Entry)
    (rest : List Entry) (hperm : book.Perm (m :: rest)) (hwf : bookWF book d) :
    (rest.map Entry.hid).Nodup ∧ m.hid ∉ rest.map Entry.hid ∧
    (∀ e ∈ rest, e ∈ book) ∧ m ∈ book := by
  obtain ⟨hnd, _⟩ := hwf
  have hnd2 : ((m :: rest).map Entry.hid).Nodup :=
    ((hperm.map Entry.hid).nodup_iff).mp hnd
  rw [List.map_cons, List.nodup_cons] at hnd2
  exact ⟨hnd2.2, hnd2.1, fun e he => hperm.symm.subset (List.mem_cons_of_mem m he),
    hperm.symm.subset (List.mem_cons_self m rest)⟩

theorem settle_side (book rest : List Entry) (m : Entry) (d : Dict) (o1 : Order)
    (key : Price) (c : Time)
    (hx : extractMin book = some (m, rest))
    (hwf : bookWF book d)
    (hid1 : o1.id = m.hid)
    (hgood : o1.is_complete = false → goodOrder o1)
    (hvq : ∀ vq vv : Int, o1.variant = .iceberg vq vv → 0 < vq) :
    bookWF (settleOrder book o1 key c).1
      (dictPut d m.hid (settleOrder book o1 key c).2.1) ∧
    ((settleOrder book o1 key c).1.map
        (entryVol (dictPut d m.hid (settleOrder book o1 key c).2.1))).sum ≤
      o1.volume.toNat + (rest.map (entryVol d)).sum := by
  have hperm := extractMin_perm book m rest hx
  obtain ⟨hndr, hnotm, hsub, hmem⟩ := bookWF_perm_facts book d m rest hperm hwf
  have hpop : heapPop book = rest := heapPop_eq book m rest hx
  have hrest_any : ∀ o2 : Order, ∀ e ∈ rest,
      ∃ o, dictGet (dictPut d m.hid o2) e.hid = some o ∧ o.id = e.hid ∧
        goodOrder o := by
    intro o2 e he
    have hne : e.hid ≠ m.hid := by
      intro hh
      exact hnotm (hh ▸ List.mem_map_of_mem Entry.hid he)
    obtain ⟨o, ho, hoid, hog⟩ := hwf.2 e (hsub e he)
    refine ⟨o, ?_, hoid, hog⟩
    rw [dictGet_dictPut_ne d m.hid o2 e.hid hne]
    exact ho
  have hrest_sum : ∀ o2 : Order,
      (rest.map (entryVol (dictPut d m.hid o2))).sum =
        (rest.map (entryVol d)).sum := by
    intro o2
    congr 1
    apply List.map_congr_left
    intro e he
    have hne : e.hid ≠ m.hid := by
      intro hh
      exact hnotm (hh ▸ List.mem_map_of_mem Entry.hid he)
    unfold entryVol
    rw [dictGet_dictPut_ne d m.hid o2 e.hid hne]
  have hself_vol : ∀ o2 : Order, ∀ e : Entry, e.hid = m.hid →
      entryVol (dictPut d m.hid o2) e = o2.volume.toNat := by
    intro o2 e he
    unfold entryVol
    rw [he, dictGet_dictPut_self]
  rcases Bool.eq_false_or_eq_true o1.is_complete with hc | hc
  · rcases Bool.eq_false_or_eq_true (o1.should_restart).2 with hr | hr
    · -- complete and restarting: popped then re-pushed under a fresh sample
      rw [settleOrder_restart book o1 key c hc hr]
      dsimp only
      rw [hpop]
      have hid2 : (o1.should_restart).1.id = m.hid := by
        rw [should_restart_id]
        exact hid1
      have hg2 : goodOrder (o1.should_restart).1 := restart_good o1 hvq hr
      refine ⟨⟨?_, ?_⟩, ?_⟩
      · show ((⟨key, c, (o1.should_restart).1.id⟩ :: rest : List Entry).map
          Entry.hid).Nodup
        rw [List.map_cons, List.nodup_cons]
        exact ⟨by rw [hid2]; exact hnotm, hndr⟩
      · intro e he
        rcases List.mem_cons.mp he with rfl | he2
        · refine ⟨(o1.should_restart).1, ?_, ?_, hg2⟩
          · show dictGet (dictPut d m.hid (o1.should_restart).1)
              (o1.should_restart).1.id = _
            rw [hid2, dictGet_dictPut_self]
          · exact hid2.symm ▸ rfl
        · exact hrest_any (o1.should_restart).1 e he2
      · show ((⟨key, c, (o1.should_restart).1.id⟩ :: rest : List Entry).map
            (entryVol (dictPut d m.hid (o1.should_restart).1))).sum ≤ _
        rw [List.map_cons, List.sum_cons,
          hself_vol (o1.should_restart).1 ⟨key, c, (o1.should_restart).1.id⟩ hid2,
          hrest_sum (o1.should_restart).1, should_restart_volume]
    · -- complete without restart: popped for good
      rw [settleOrder_pop book o1 key c hc hr]
      dsimp only
      rw [hpop]
      refine ⟨⟨hndr, fun e he => hrest_any o1 e he⟩, ?_⟩
      rw [hrest_sum o1]
      exact Nat.le_add_left _ _
  · -- not complete: stays at the root
    rw [settleOrder_not_complete book o1 key c hc]
    dsimp only
    have hg1 : goodOrder o1 := hgood hc
    refine ⟨⟨hwf.1, ?_⟩, ?_⟩
    · intro e he
      rcases List.mem_cons.mp (hperm.subset he) with rfl | he2
      · refine ⟨o1, ?_, hid1, hg1⟩
        exact dictGet_dictPut_self d _ o1
      · exact hrest_any o1 e he2
    · have hsum : (book.map (entryVol (dictPut d m.hid o1))).sum =
          ((m :: rest).map (entryVol (dictPut d m.hid o1))).sum :=
        (hperm.map (entryVol (dictPut d m.hid o1))).sum_eq
      rw [hsum, List.map_cons, List.sum_cons, hself_vol o1 m rfl, hrest_sum o1]

theorem trade_variant_regular (o : Order) (amount : Int) (cts : Time)
    (h : o.variant = .regular) : (o.trade amount cts).1.variant = .regular := by
  simp [Order.trade, h]

theorem crossExists_peeks (st : Clob) (hc : crossExists st = true) :
    ∃ bTop sTop : Entry, heapPeek st.buy_orders = some bTop ∧
      heapPeek st.sell_orders = some sTop := by
  unfold crossExists at hc
  cases hb : heapPeek st.buy_orders with
  | none => rw [hb] at hc; simp at hc
  | some bTop =>
      cases hs : heapPeek st.sell_orders with
      | none => rw [hb, hs] at hc; simp at hc
      | some sTop => exact ⟨bTop, sTop, rfl, rfl⟩

theorem iterBody_components (st : Clob) (log : MatchLog) (bi si : OrderId)
    (b s : Order) :
    ∃ c0 : Time,
      (iterBody st log bi si b s).1.sell_orders =
        (settleOrder st.sell_orders (s.trade b.get_volume b.timestamp).1
          (s.trade b.get_volume b.timestamp).1.price c0).1 ∧
      (iterBody st log bi si b s).1.ordersS =
        dictPut st.ordersS si
          (settleOrder st.sell_orders (s.trade b.get_volume b.timestamp).1
            (s.trade b.get_volume b.timestamp).1.price c0).2.1 ∧
      ∃ c1 : Time,
        (iterBody st log bi si b s).1.buy_orders =
          (settleOrder st.buy_orders
            (b.trade (s.trade b.get_volume b.timestamp).2 s.timestamp).1
            (-(b.trade (s.trade b.get_volume b.timestamp).2 s.timestamp).1.price)
            c1).1 ∧
        (iterBody st log bi si b s).1.ordersB =
          dictPut st.ordersB bi
            (settleOrder st.buy_orders
              (b.trade (s.trade b.get_volume b.timestamp).2 s.timestamp).1
              (-(b.trade (s.trade b.get_volume b.timestamp).2 s.timestamp).1.price)
              c1).2.1 := by
  unfold iterBody
  dsimp only
  by_cases hm : logMem log (matchKeyOf b s) = true
  · rw [if_pos hm]
    exact ⟨st.clock, rfl, rfl, _, rfl, rfl⟩
  · rw [if_neg hm]
    exact ⟨st.clock + 1, rfl, rfl, _, rfl, rfl⟩

theorem iteration_step (st : Clob) (log : MatchLog)
    (hwf : engineWF st) (hc : crossExists st = true) :
    ∃ res, matchIteration st log = some res ∧ engineWF res.1 ∧
      clobMeasure res.1 < clobMeasure st := by
  obtain ⟨bTop, sTop, hb, hs⟩ := crossExists_peeks st hc
  obtain ⟨restB, hxb⟩ := heapPeek_extractMin _ _ hb
  obtain ⟨restS, hxs⟩ := heapPeek_extractMin _ _ hs
  have hpermB := extractMin_perm _ _ _ hxb
  have hpermS := extractMin_perm _ _ _ hxs
  obtain ⟨hwfB, hwfS⟩ := hwf
  obtain ⟨b, hob, hbid, hbg⟩ :=
    hwfB.2 bTop (hpermB.symm.subset (List.mem_cons_self _ _))
  obtain ⟨s, hos, hsid, hsg⟩ :=
    hwfS.2 sTop (hpermS.symm.subset (List.mem_cons_self _ _))
  obtain ⟨c0, hso, hdo, c1, hbo, hdb⟩ := iterBody_components st log bTop.hid sTop.hid b s
  have hamt : 0 < b.get_volume := goodOrder_displayed_pos b hbg
  have htr1 : 1 ≤ (s.trade b.get_volume b.timestamp).2 := trade_pos s _ _ hsg hamt
  have htrle : (s.trade b.get_volume b.timestamp).2 ≤ s.volume :=
    trade_le_volume s _ _ hsg
  have hid_s : (s.trade b.get_volume b.timestamp).1.id = sTop.hid := by
    rw [trade_id]
    exact hsid
  have hid_b :
      (b.trade (s.trade b.get_volume b.timestamp).2 s.timestamp).1.id = bTop.hid := by
    rw [trade_id]
    exact hbid
  have hvq_s : ∀ vq vv : Int,
      (s.trade b.get_volume b.timestamp).1.variant = .iceberg vq vv → 0 < vq := by
    intro vq vv h
    cases hvar : s.variant with
    | regular =>
        rw [trade_variant_regular s _ _ hvar] at h
        simp at h
    | iceberg vq0 vv0 =>
        obtain ⟨vv1, h1⟩ := trade_vq s _ _ vq0 vv0 hvar
        rw [h1] at h
        injection h with h2 h3
        subst h2
        exact (hsg.2 _ vv0 hvar).2.2
  have hvq_b : ∀ vq vv : Int,
      (b.trade (s.trade b.get_volume b.timestamp).2 s.timestamp).1.variant =
        .iceberg vq vv → 0 < vq := by
    intro vq vv h
    cases hvar : b.variant with
    | regular =>
        rw [trade_variant_regular b _ _ hvar] at h
        simp at h
    | iceberg vq0 vv0 =>
        obtain ⟨vv1, h1⟩ := trade_vq b _ _ vq0 vv0 hvar
        rw [h1] at h
        injection h with h2 h3
        subst h2
        exact (hbg.2 _ vv0 hvar).2.2
  have hset_s := settle_side st.sell_orders restS sTop st.ordersS
    (s.trade b.get_volume b.timestamp).1
    ((s.trade b.get_volume b.timestamp).1.price) c0 hxs ⟨hwfS.1, hwfS.2⟩ hid_s
    (fun hcp => trade_good_of_not_complete s _ _ hsg hcp) hvq_s
  have hset_b := settle_side st.buy_orders restB bTop st.ordersB
    (b.trade (s.trade b.get_volume b.timestamp).2 s.timestamp).1
    (-(b.trade (s.trade b.get_volume b.timestamp).2 s.timestamp).1.price) c1 hxb
    ⟨hwfB.1, hwfB.2⟩ hid_b
    (fun hcp => trade_good_of_not_complete b _ _ hbg hcp) hvq_b
  refine ⟨iterBody st log bTop.hid sTop.hid b s,
    matchIteration_eq st log bTop sTop b s hb hs hob hos, ⟨?_, ?_⟩, ?_⟩
  · rw [hbo, hdb]
    exact hset_b.1
  · rw [hso, hdo]
    exact hset_s.1
  · unfold clobMeasure
    rw [hbo, hdb, hso, hdo]
    have hmb := hset_b.2
    have hms := hset_s.2
    have hsumB : (st.buy_orders.map (entryVol st.ordersB)).sum =
        entryVol st.ordersB bTop + (restB.map (entryVol st.ordersB)).sum := by
      rw [(hpermB.map (entryVol st.ordersB)).sum_eq, List.map_cons, List.sum_cons]
    have hsumS : (st.sell_orders.map (entryVol st.ordersS)).sum =
        entryVol st.ordersS sTop + (restS.map (entryVol st.ordersS)).sum := by
      rw [(hpermS.map (entryVol st.ordersS)).sum_eq, List.map_cons, List.sum_cons]
    have hvb : entryVol st.ordersB bTop = b.volume.toNat := by
      unfold entryVol
      rw [hob]
    have hvs : entryVol st.ordersS sTop = s.volume.toNat := by
      unfold entryVol
      rw [hos]
    have hsvol := trade_volume_eq s b.get_volume b.timestamp
    have hbvol := trade_volume_eq b (s.trade b.get_volume b.timestamp).2 s.timestamp
    have hp2 : 0 ≤ (b.trade (s.trade b.get_volume b.timestamp).2 s.timestamp).2 :=
      trade_nonneg b _ _ hbg (by omega)
    have hbpos : 0 < b.volume := hbg.1
    have hspos : 0 < s.volume := hsg.1
    rw [hsumB, hsumS, hvb, hvs]
    omega

theorem check_matches_loop_terminates :
    ∀ (n : Nat) (st : Clob) (log : MatchLog) (trace : List (MatchKey × Int)),
      engineWF st → clobMeasure st ≤ n →
      ∃ res, check_matches_loop (n + 1) st log trace = some res := by
  intro n
  induction n with
  | zero =>
      intro st log trace hwf hm
      by_cases hc : crossExists st = true
      · obtain ⟨res, _, _, hlt⟩ := iteration_step st log hwf hc
        omega
      · exact ⟨(st, log, trace), by rw [check_matches_loop, if_neg hc]⟩
  | succ n ih =>
      intro st log trace hwf hm
      by_cases hc : crossExists st = true
      · obtain ⟨res, hit, hwf1, hlt⟩ := iteration_step st log hwf hc
        obtain ⟨st1, log1, k, t⟩ := res
        have hlt2 : clobMeasure st1 < clobMeasure st := hlt
        obtain ⟨res2, h2⟩ := ih st1 log1 (trace ++ [(k, t)]) hwf1 (by omega)
        refine ⟨res2, ?_⟩
        rw [check_matches_loop, if_pos hc, hit]
        exact h2
      · exact ⟨(st, log, trace), by rw [check_matches_loop, if_neg hc]⟩

/-- C10 (amended).  For every engine state in which every resting order
has strictly positive volume, every resting iceberg has a strictly
positive visible slice, and the state conforms to the spec's data model
(`engineWF`: positive peak, visible slice bounded by the volume, each
heap entry resolving in the id index under its own id, distinct entry
ids per book), the matching-pass loop performs only finitely many
iterations — fuel `clobMeasure st + 1` suffices — so the pass runs to
completion and returns. -/
theorem matching_pass_terminates (st : Clob) (log : MatchLog)
    (trace : List (MatchKey × Int)) (hwf : engineWF st) :
    ∃ fuel res, check_matches_loop fuel st log trace = some res :=
  ⟨clobMeasure st + 1,
    check_matches_loop_terminates (clobMeasure st) st log trace hwf le_rfl⟩

/-- Witness for the amended C10 at a concrete crossing pair of regular
orders. -/
theorem matching_pass_terminates_witness :
    ∃ fuel res, check_matches_loop fuel
      (Clob.mk [("A", Order.mk "A" 100 50 .B 0 .regular)]
        [("X", Order.mk "X" 100 50 .S 1 .regular)]
        [Entry.mk (-100) 0 "A"] [Entry.mk 100 1 "X"] 2) [] [] = some res := by
  apply matching_pass_terminates
  constructor
  · refine ⟨by decide, ?_⟩
    intro e he
    rw [List.mem_singleton] at he
    subst he
    exact ⟨Order.mk "A" 100 50 .B 0 .regular, rfl, rfl, by decide,
      by intro vq vv h; simp at h⟩
  · refine ⟨by decide, ?_⟩
    intro e he
    rw [List.mem_singleton] at he
    subst he
    exact ⟨Order.mk "X" 100 50 .S 1 .regular, rfl, rfl, by decide,
      by intro vq vv h; simp at h⟩

/-- The resting shape the diverging pass cycles through: a zero-peak
iceberg whose refilled slice is always `min(volume, 0) = 0`. -/
def badI45 : Order := ⟨"I", 100, 45, .B, 0, .iceberg 0 0⟩

/-- The resting regular sell the diverging buy iceberg keeps crossing. -/
def badS95 : Order := ⟨"SS", 90, 95, .S, 1, .regular⟩

/-- The family of states the diverging matching pass cycles through,
parameterised by the clock and the restarted entry's heap timestamp. -/
def badState (c t : Time) : Clob :=
  { ordersB := [("I", badI45)], ordersS := [("SS", badS95)],
    buy_orders := [⟨-100, t, "I"⟩], sell_orders := [⟨90, 1, "SS"⟩], clock := c }

/-- The buy-side iceberg of the diverging scenario: volume 50, peak 0,
visible slice 5 — strictly positive volume and visible slice, as the
claim's hypothesis requires, but a zero peak. -/
def divI : Order := ⟨"I", 100, 50, .B, 0, .iceberg 0 5⟩

/-- The resting sell of the diverging scenario. -/
def divS : Order := ⟨"SS", 90, 100, .S, 1, .regular⟩

/-- The initial engine state of the diverging scenario. -/
def divState : Clob :=
  { ordersB := [("I", divI)], ordersS := [("SS", divS)],
    buy_orders := [⟨-100, 0, "I"⟩], sell_orders := [⟨90, 1, "SS"⟩], clock := 2 }

/-- The matching pass started from `st` never returns, whatever fuel it
is given. -/
def loopDiverges (st : Clob) : Prop :=
  ∀ fuel, check_matches_loop fuel st [] [] = none

theorem badState_body (c t : Time) (log : MatchLog) :
    ∃ (c1 : Time) (log1 : MatchLog),
      iterBody (badState c t) log "I" "SS" badI45 badS95 =
        (badState (c1 + 1) c1, log1, ("SS", "I", (100 : Price)), 0) := by
  have hkey : matchKeyOf badI45 badS95 = ("SS", "I", (100 : Price)) := rfl
  by_cases hm : logMem log (("SS", "I", (100 : Price))) = true
  · refine ⟨c, logBump log ("SS", "I", (100 : Price)) 0, ?_⟩
    unfold iterBody
    dsimp only
    rw [hkey, if_pos hm]
    rfl
  · refine ⟨c + 1, log ++ [(("SS", "I", (100 : Price)), ⟨c, 0⟩)], ?_⟩
    unfold iterBody
    dsimp only
    rw [hkey, if_neg hm]
    rfl

theorem badState_loop_none :
    ∀ (fuel : Nat) (c t : Time) (log : MatchLog) (trace : List (MatchKey × Int)),
      check_matches_loop fuel (badState c t) log trace = none := by
  intro fuel
  induction fuel with
  | zero => intro c t log trace; rfl
  | succ n ih =>
      intro c t log trace
      rw [check_matches_loop, if_pos (show crossExists (badState c t) = true from rfl)]
      obtain ⟨c1, log1, hb⟩ := badState_body c t log
      rw [show matchIteration (badState c t) log =
        some (iterBody (badState c t) log "I" "SS" badI45 badS95) from rfl, hb]
      exact ih (c1 + 1) c1 log1 (trace ++ [(("SS", "I", (100 : Price)), 0)])

/-- C10 counterexample.  The claim fails on the code as stated: the state
`divState` satisfies the claim's hypothesis — its resting buy iceberg has
volume 50 > 0 and visible slice 5 > 0, its resting sell has volume
100 > 0 — yet its matching pass never returns.  The iceberg's peak is 0
(a value the claim's hypothesis does not exclude), so once its slice is
consumed, `should_restart` refills `visible` to `min(45, 0) = 0` and
re-pushes it; every later iteration trades 0, completes it again, and
re-pushes it again, forever. -/
theorem matching_pass_divergence_counterexample :
    (0 < divI.volume ∧ divI.variant = .iceberg 0 5 ∧ (0 : Int) < 5 ∧
      0 < divS.volume ∧ divS.variant = .regular) ∧
    loopDiverges divState := by
  refine ⟨by decide, ?_⟩
  intro fuel
  cases fuel with
  | zero => rfl
  | succ n =>
      rw [check_matches_loop, if_pos (show crossExists divState = true from rfl)]
      show check_matches_loop n (badState 4 3)
        [(("SS", "I", (100 : Price)), ⟨2, 5⟩)]
        ([] ++ [(("SS", "I", (100 : Price)), 5)]) = none
      exact badState_loop_none n 4 3 _ _

end CLOB
